import Mathlib

/-!
The glob compiler of bsm/glob (compiler.go)

A shallow embedding of `optimize`, `glueMatchers`, `convertMatchers`, `do` and
`compile` of `compiler.go`, together with the matcher values they build, and
theorems about them.

Go strings are modelled as the list of their characters.  The matcher
interface value `nil` (an absent matcher) is `none` of `Option Matcher`.
-/

namespace Glob

/-- A Go string, as the list of its characters. -/
abbrev Str := List Char

/-- The matcher values of package `match` that the compiler builds and inspects:
one constructor per struct type, the fields in the order of the composite
literals of `compiler.go`. -/
inductive Matcher where
  | Raw (str : Str)
  | Single (separators : Str)
  | Any (separators : Str)
  | Super
  | List (list : Str) (not : Bool)
  | Range (lo hi : Char) (not : Bool)
  | Prefix (pre : Str)
  | Suffix (suf : Str)
  | Contains (needle : Str) (not : Bool)
  | Min (limit : Nat)
  | Max (limit : Nat)
  | Every (matchers : List Matcher)
  | AnyOf (matchers : List Matcher)
  | BTree (value : Matcher) (left right : Option Matcher)

/-- The AST nodes of the parser that `do` switches on.  `Unknown` stands for any
other implementation of the `node` interface (the `default` branch). -/
inductive Node where
  | Pattern (children : List Node)
  | AnyOf (children : List Node)
  | List (chars : Str) (not : Bool)
  | Range (lo hi : Char) (not : Bool)
  | Any
  | Super
  | Single
  | Text (text : Str)
  | Unknown

/-- The two errors of the compiler: `fmt.Errorf("could not convert matchers %s:
need at least one primitive", matchers)` and `fmt.Errorf("could not compile
tree: unknown node type")`. -/
inductive CompileError where
  | needPrimitive (matchers : List Matcher)
  | unknownNode

/-- Modelled from the spec: the interface `match.Primitive` is declared in package
`match`, which is not among the sources.  The primitive matchers are Raw, Single,
Any, Super, List, Range, Prefix, Suffix, Contains, Min and Max; Every, AnyOf and
BTree are composites. -/
def isPrimitive : Matcher → Bool
  | .Every _ => false
  | .AnyOf _ => false
  | .BTree _ _ _ => false
  | _ => true

/-- The type assertion `matcher.(match.Raw)`. -/
def isRaw : Matcher → Bool
  | .Raw _ => true
  | _ => false

/-- The `match.BTree` case of `optimize` after `m.Left` and `m.Right` have been
replaced by their optimized values `l` and `r`. -/
def optimizeBTree (value : Matcher) (l r : Option Matcher) : Matcher :=
  match value with
  | .Raw str =>
    match l, r with
    | none, none => .Raw str
    | some .Super, some .Super => .Contains str false
    | some .Super, none => .Suffix str
    | none, some .Super => .Prefix str
    | none, some (.Suffix suf) => .Every [.Prefix str, .Suffix suf]
    | some (.Prefix pre), none => .Every [.Prefix pre, .Suffix str]
    | _, _ => .BTree value l r
  | _ => .BTree value l r

/-- The function `optimize` on a matcher that is not nil. -/
def optimize : Matcher → Matcher
  | .Any separators => if separators = [] then .Super else .Any separators
  | .BTree value left right =>
    optimizeBTree value
      (match left with
        | none => none
        | some x => some (optimize x))
      (match right with
        | none => none
        | some x => some (optimize x))
  | m => m

/-- The function `optimize` on an interface value: nil falls through the type
switch and is returned as it is. -/
def optimizeOpt : Option Matcher → Option Matcher
  | none => none
  | some m => some (optimize m)

/-- The local variables of the loop of `glueMatchers`. -/
structure GlueState where
  hasAny : Bool
  hasSuper : Bool
  hasSingle : Bool
  min : Nat
  separator : Str

/-- The `switch` of the loop body of `glueMatchers`: the separator set of the
element and the updated flags, or `none` where the body returns nil. -/
def glueKind (st : GlueState) : Matcher → Option (Str × GlueState)
  | .Super => some ([], ⟨st.hasAny, true, st.hasSingle, st.min, st.separator⟩)
  | .Any separators => some (separators, ⟨true, st.hasSuper, st.hasSingle, st.min, st.separator⟩)
  | .Single separators =>
    some (separators, ⟨st.hasAny, st.hasSuper, true, st.min + 1, st.separator⟩)
  | .List list not =>
    if !not then none
    else some (list, ⟨st.hasAny, st.hasSuper, true, st.min + 1, st.separator⟩)
  | _ => none

/-- One iteration of the loop of `glueMatchers` at index `i`. -/
def glueStep (i : Nat) (st : GlueState) (m : Matcher) : Option GlueState :=
  match glueKind st m with
  | none => none
  | some (sep, st1) =>
    let st2 : GlueState :=
      if i = 0 then ⟨st1.hasAny, st1.hasSuper, st1.hasSingle, st1.min, sep⟩ else st1
    if sep = st2.separator then some st2 else none

/-- The loop of `glueMatchers` from index `i` on. -/
def glueLoop : Nat → GlueState → List Matcher → Option GlueState
  | _, st, [] => some st
  | i, st, m :: ms =>
    match glueStep i st m with
    | none => none
    | some st1 => glueLoop (i + 1) st1 ms

/-- The part of `glueMatchers` after the loop. -/
def glueResult (st : GlueState) : Matcher :=
  if st.hasSuper && !st.hasAny && !st.hasSingle then .Super
  else if st.hasAny && !st.hasSuper && !st.hasSingle then .Any st.separator
  else if (st.hasAny || st.hasSuper) && decide (st.min > 0) && decide (st.separator = []) then
    .Min st.min
  else
    let every1 : List Matcher :=
      if st.min > 0 then
        if !st.hasAny && !st.hasSuper then [.Min st.min, .Max st.min] else [.Min st.min]
      else []
    let every2 : List Matcher :=
      if st.separator ≠ [] then every1 ++ [.Contains st.separator true] else every1
    .Every every2

/-- The function `glueMatchers`; `none` is the nil it returns when it does not fuse. -/
def glueMatchers (matchers : List Matcher) : Option Matcher :=
  match matchers with
  | [] => none
  | [m] => some m
  | _ =>
    match glueLoop 0 ⟨false, false, false, 0, []⟩ matchers with
    | none => none
    | some st => some (glueResult st)

/-- The anchor scan of `convertMatchers` from index `i` on: `acc` is the pair
`(idx, val)` set so far, `none` while `val` is nil. -/
def scanAnchor : Nat → Option (Nat × Matcher) → List Matcher → Option (Nat × Matcher)
  | _, acc, [] => acc
  | i, acc, m :: ms =>
    if isPrimitive m then
      if isRaw m then some (i, m) else scanAnchor (i + 1) (some (i, m)) ms
    else scanAnchor (i + 1) acc ms

/-- The body of `convertMatchers`, with `self` for its recursive calls. -/
def convertBody (self : List Matcher → Except CompileError Matcher)
    (matchers : List Matcher) : Except CompileError Matcher :=
  match glueMatchers matchers with
  | some m => .ok m
  | none =>
    match scanAnchor 0 none matchers with
    | none => .error (.needPrimitive matchers)
    | some (idx, val) =>
      let left := matchers.take idx
      let right := if matchers.length > idx + 1 then matchers.drop (idx + 1) else []
      match (if left.length > 0 then (self left).map some else .ok none) with
      | .error err => .error err
      | .ok l =>
        match (if right.length > 0 then (self right).map some else .ok none) with
        | .error err => .error err
        | .ok r => .ok (.BTree val l r)

/-- The function `convertMatchers` unrolled `fuel` levels deep.  Both recursive
calls are on strictly shorter slices, so a call on a slice of length `n` needs at
most `n` levels (`convertMatchers_eq` below); the innermost level is never reached
with a slice that recurses. -/
def convertMatchersAux : Nat → List Matcher → Except CompileError Matcher
  | 0, matchers => convertBody (fun ms => .error (.needPrimitive ms)) matchers
  | fuel + 1, matchers => convertBody (convertMatchersAux fuel) matchers

/-- The function `convertMatchers`. -/
def convertMatchers (matchers : List Matcher) : Except CompileError Matcher :=
  convertMatchersAux matchers.length matchers

mutual
/-- The function `do`: the lowering of one AST node with separators `s`. -/
def doNode : Node → Str → Except CompileError Matcher
  | .Pattern children, s =>
    match doChildren children s with
    | .error err => .error err
    | .ok matchers =>
      match convertMatchers matchers with
      | .error err => .error err
      | .ok m => .ok (optimize m)
  | .AnyOf children, s =>
    match doChildren children s with
    | .error err => .error err
    | .ok matchers => .ok (optimize (.AnyOf matchers))
  | .List chars not, _ => .ok (optimize (.List chars not))
  | .Range lo hi not, _ => .ok (optimize (.Range lo hi not))
  | .Any, s => .ok (optimize (.Any s))
  | .Super, _ => .ok (optimize .Super)
  | .Single, s => .ok (optimize (.Single s))
  | .Text text, _ => .ok (optimize (.Raw text))
  | .Unknown, _ => .error .unknownNode
/-- The loop of `do` over `node.children()`: each child is lowered and its
optimized matcher appended; the first error ends the loop. -/
def doChildren : List Node → Str → Except CompileError (List Matcher)
  | [], _ => .ok []
  | desc :: rest, s =>
    match doNode desc s with
    | .error err => .error err
    | .ok m =>
      match doChildren rest s with
      | .error err => .error err
      | .ok matchers => .ok (optimize m :: matchers)
end

/-- The function `compile`.  Its Go parameter has the static type `*nodePattern`;
callers pass a `Node.Pattern`. -/
def compile (ast : Node) (s : Str) : Except CompileError Matcher :=
  doNode ast s

mutual
/-- Modelled from the spec: the evaluator `Match` of package `match` is not among
the sources.  Raw accepts exactly its literal; Single one character outside its
separators; Any every string without a character of its separators; Super every
string; List and Range one character in the set (outside it when negated); Prefix,
Suffix and Contains are the starts-with, ends-with and substring tests, the last
one inverted by its flag; Min and Max bound the number of characters; Every is the
conjunction and AnyOf the disjunction of its children; a BTree accepts `s` when an
occurrence of its Value splits `s` so that Left accepts the part before and Right
the part after it, an absent side accepting only the empty string. -/
def Match : Matcher → Str → Bool
  | .Raw str, s => decide (s = str)
  | .Single separators, s =>
    match s with
    | [c] => !separators.contains c
    | _ => false
  | .Any separators, s => s.all fun c => !separators.contains c
  | .Super, _ => true
  | .List list not, s =>
    match s with
    | [c] => list.contains c != not
    | _ => false
  | .Range lo hi not, s =>
    match s with
    | [c] => decide (lo ≤ c ∧ c ≤ hi) != not
    | _ => false
  | .Prefix pre, s => decide (pre <+: s)
  | .Suffix suf, s => decide (suf <:+ s)
  | .Contains needle not, s => decide (needle <:+: s) != not
  | .Min limit, s => decide (limit ≤ s.length)
  | .Max limit, s => decide (s.length ≤ limit)
  | .Every matchers, s => MatchEvery matchers s
  | .AnyOf matchers, s => MatchAnyOf matchers s
  | .BTree value left right, s =>
    (List.range (s.length + 1)).any fun i =>
      (List.range (s.length + 1 - i)).any fun k =>
        Match value ((s.drop i).take k) &&
        (match left with
          | none => (s.take i).isEmpty
          | some x => Match x (s.take i)) &&
        (match right with
          | none => (s.drop (i + k)).isEmpty
          | some x => Match x (s.drop (i + k)))
/-- Modelled from the spec: `Every` accepts when all its children accept. -/
def MatchEvery : List Matcher → Str → Bool
  | [], _ => true
  | m :: ms, s => Match m s && MatchEvery ms s
/-- Modelled from the spec: `AnyOf` accepts when one of its children accepts. -/
def MatchAnyOf : List Matcher → Str → Bool
  | [], _ => false
  | m :: ms, s => Match m s || MatchAnyOf ms s
end

/-- Modelled from the spec: a side of a BTree; an absent side accepts only the
empty string. -/
def MatchSide : Option Matcher → Str → Bool
  | none, s => s.isEmpty
  | some x, s => Match x s

/-- Modelled from the spec: sequence matching; `s` can be cut into consecutive
pieces, one per element in order, each accepted by its element. -/
def seqAccepts : List Matcher → Str → Bool
  | [], s => s.isEmpty
  | m :: ms, s =>
    (List.range (s.length + 1)).any fun k => Match m (s.take k) && seqAccepts ms (s.drop k)

/-- The leaves of the AST: Text, List, Range, Any, Super and Single nodes. -/
def isLeafNode : Node → Bool
  | .Pattern _ => false
  | .AnyOf _ => false
  | .Unknown => false
  | _ => true

mutual
/-- An AST built only from the eight node kinds in which every Pattern and
AnyOf node has at least one child. -/
def validAst : Node → Bool
  | .Pattern children => !children.isEmpty && validAstList children
  | .AnyOf children => !children.isEmpty && validAstList children
  | .Unknown => false
  | _ => true
/-- Every node of the list is a valid AST. -/
def validAstList : List Node → Bool
  | [] => true
  | n :: ns => validAst n && validAstList ns
end

/-- Of every two adjacent nodes of the list at least one is a leaf. -/
def adjacentLeaf : List Node → Bool
  | a :: b :: rest => (isLeafNode a || isLeafNode b) && adjacentLeaf (b :: rest)
  | _ => true

mutual
/-- An AST in which no Pattern node has two adjacent children that are both
Pattern or AnyOf nodes. -/
def separatedGroups : Node → Bool
  | .Pattern children => adjacentLeaf children && separatedGroupsList children
  | .AnyOf children => separatedGroupsList children
  | _ => true
/-- Every node of the list satisfies `separatedGroups`. -/
def separatedGroupsList : List Node → Bool
  | [] => true
  | n :: ns => separatedGroups n && separatedGroupsList ns
end

/-- A BTree whose Value is a Raw literal and whose Left and Right are both absent. -/
def isOneNodeTree : Matcher → Bool
  | .BTree (.Raw _) none none => true
  | _ => false

mutual
/-- The matcher contains at no depth (root, Value or side of a BTree, child of an
Every or AnyOf) a one-node literal tree. -/
def noOneNodeTree : Matcher → Bool
  | .BTree value left right =>
    !isOneNodeTree (.BTree value left right) && noOneNodeTree value &&
    (match left with
      | none => true
      | some x => noOneNodeTree x) &&
    (match right with
      | none => true
      | some x => noOneNodeTree x)
  | .Every matchers => noOneNodeTreeList matchers
  | .AnyOf matchers => noOneNodeTreeList matchers
  | _ => true
/-- No matcher of the list contains a one-node literal tree. -/
def noOneNodeTreeList : List Matcher → Bool
  | [] => true
  | m :: ms => noOneNodeTree m && noOneNodeTreeList ms
end

/-- A side of a BTree contains no one-node literal tree. -/
def noOneNodeTreeSide : Option Matcher → Bool
  | none => true
  | some x => noOneNodeTree x

/-- The separator set that the loop of `glueMatchers` reads off an element of a
fusible kind: empty for Super, `Separators` for Any and Single, the characters of
a negated List; `none` for every other matcher. -/
def fusibleSep : Matcher → Option Str
  | .Super => some []
  | .Any separators => some separators
  | .Single separators => some separators
  | .List list true => some list
  | _ => none

/-- The matcher is a Super. -/
def isSuper : Matcher → Bool
  | .Super => true
  | _ => false

/-- The matcher is an Any. -/
def isAny : Matcher → Bool
  | .Any _ => true
  | _ => false

/-- The matcher is a Single or a negated List, the elements of width one. -/
def isSingleWidth : Matcher → Bool
  | .Single _ => true
  | .List _ true => true
  | _ => false

/-- The result table of the run fuser as section 4.2 of the specification words
it, for a sequence `ms` of fusible elements with the common separator set `sep`:
`k` counts the Single and negated-List elements. -/
def fusionTable (ms : List Matcher) (sep : Str) : Matcher :=
  let k := ms.countP isSingleWidth
  let wild := ms.any fun m => isSuper m || isAny m
  if ms.all isSuper then .Super
  else if ms.all isAny then .Any sep
  else if decide (0 < k) && wild && decide (sep = []) then .Min k
  else
    .Every ((if 0 < k then [.Min k] else []) ++
      (if 0 < k ∧ wild = false then [.Max k] else []) ++
      (if sep ≠ [] then [.Contains sep true] else []))

mutual
/-- The matcher contains at no depth (root, Value or side of a BTree, child of an
Every or AnyOf) an Any whose separator set is empty. -/
def noEmptyAny : Matcher → Bool
  | .Any separators => !separators.isEmpty
  | .BTree value left right =>
    noEmptyAny value &&
    (match left with
      | none => true
      | some x => noEmptyAny x) &&
    (match right with
      | none => true
      | some x => noEmptyAny x)
  | .Every matchers => noEmptyAnyList matchers
  | .AnyOf matchers => noEmptyAnyList matchers
  | _ => true
/-- No matcher of the list contains an Any with an empty separator set. -/
def noEmptyAnyList : List Matcher → Bool
  | [] => true
  | m :: ms => noEmptyAny m && noEmptyAnyList ms
end

/-- A side of a BTree contains no Any with an empty separator set. -/
def noEmptyAnySide : Option Matcher → Bool
  | none => true
  | some x => noEmptyAny x

/-- The in-order traversal of a matcher: Left, Value, Right for a BTree, nothing
for an absent side, the matcher itself for every other matcher. -/
def inorder : Matcher → List Matcher
  | .BTree value left right =>
    (match left with
      | none => []
      | some x => inorder x) ++ [value] ++
    (match right with
      | none => []
      | some x => inorder x)
  | m => [m]

/-- The in-order traversal of a side of a BTree. -/
def inorderSide : Option Matcher → List Matcher
  | none => []
  | some x => inorder x

/-- The matcher is of a fusible kind: Super, Any, Single or negated List. -/
def isFusibleKind (m : Matcher) : Bool :=
  (fusibleSep m).isSome

/-! ## Theorems -/

/-- C1 (code evaluated at the failing input): `optimize` turns the tree of the
pattern `a*a` into `Every[Prefix a, Suffix a]`, which accepts the string `a`,
while the tree itself rejects it: the two occurrences of the literal overlap. -/
theorem optimize_changes_match :
    optimize (.BTree (.Raw ['a']) none (some (.BTree (.Raw ['a']) (some .Super) none)))
      = .Every [.Prefix ['a'], .Suffix ['a']] ∧
    Match (optimize (.BTree (.Raw ['a']) none (some (.BTree (.Raw ['a']) (some .Super) none))))
      ['a'] = true ∧
    Match (.BTree (.Raw ['a']) none (some (.BTree (.Raw ['a']) (some .Super) none))) ['a']
      = false := by
  refine ⟨rfl, ?_, ?_⟩ <;> decide

/-- C2 (code evaluated at the failing input): with the two separators `/` and `.`
the run `??` is fused into `Every[Min 2, Max 2, Contains{"/.", true}]`, which
accepts `a/` although the second `Single` rejects the separator `/`. -/
theorem glueMatchers_two_separators :
    glueMatchers [.Single ['/', '.'], .Single ['/', '.']]
      = some (.Every [.Min 2, .Max 2, .Contains ['/', '.'] true]) ∧
    Match (.Every [.Min 2, .Max 2, .Contains ['/', '.'] true]) ['a', '/'] = true ∧
    seqAccepts [.Single ['/', '.'], .Single ['/', '.']] ['a', '/'] = false := by
  refine ⟨rfl, ?_, ?_⟩ <;> decide

theorem optimize_BTree (value : Matcher) (left right : Option Matcher) :
    optimize (.BTree value left right)
      = optimizeBTree value (optimizeOpt left) (optimizeOpt right) := by
  cases left <;> cases right <;> rfl

theorem optimize_of_not_BTree_Any (m : Matcher)
    (hb : ∀ v l r, m ≠ .BTree v l r) (ha : ∀ sep, m ≠ .Any sep) : optimize m = m := by
  cases m <;> first | rfl | (exfalso; exact ha _ rfl) | (exfalso; exact hb _ _ _ rfl)

theorem optimizeBTree_fixed (value : Matcher) (l r : Option Matcher)
    (hl : optimizeOpt l = l) (hr : optimizeOpt r = r) :
    optimize (optimizeBTree value l r) = optimizeBTree value l r := by
  have key : optimize (.BTree value l r) = optimizeBTree value l r := by
    rw [optimize_BTree, hl, hr]
  by_cases hfall : optimizeBTree value l r = .BTree value l r
  · rw [hfall] at key ⊢
    exact key
  · apply optimize_of_not_BTree_Any
    · intro v l1 r1 h
      apply hfall
      unfold optimizeBTree at h ⊢
      split at h
      · split at h <;> first | exact Matcher.noConfusion h | rfl
      · rfl
    · intro sep h
      unfold optimizeBTree at h
      split at h
      · split at h <;> exact Matcher.noConfusion h
      · exact Matcher.noConfusion h

theorem optimize_idem_aux : ∀ m : Matcher, optimize (optimize m) = optimize m
  | .Any sep => by
    by_cases h : sep = [] <;> simp [optimize, h]
  | .BTree value left right => by
    rw [optimize_BTree]
    apply optimizeBTree_fixed
    · cases left with
      | none => rfl
      | some x => simp only [optimizeOpt]; rw [optimize_idem_aux x]
    · cases right with
      | none => rfl
      | some x => simp only [optimizeOpt]; rw [optimize_idem_aux x]
  | .Raw _ => rfl
  | .Single _ => rfl
  | .Super => rfl
  | .List _ _ => rfl
  | .Range _ _ _ => rfl
  | .Prefix _ => rfl
  | .Suffix _ => rfl
  | .Contains _ _ => rfl
  | .Min _ => rfl
  | .Max _ => rfl
  | .Every _ => rfl
  | .AnyOf _ => rfl

/-- C3: `optimize` is idempotent on every matcher value, the absent one (nil)
included: optimizing an optimized matcher returns it unchanged. -/
theorem optimize_idempotent (m : Option Matcher) :
    optimizeOpt (optimizeOpt m) = optimizeOpt m := by
  cases m with
  | none => rfl
  | some x => simp only [optimizeOpt]; rw [optimize_idem_aux x]

theorem Match_BTree (value : Matcher) (left right : Option Matcher) (s : Str) :
    Match (.BTree value left right) s =
      (List.range (s.length + 1)).any fun i =>
        (List.range (s.length + 1 - i)).any fun k =>
          Match value ((s.drop i).take k) && MatchSide left (s.take i) &&
            MatchSide right (s.drop (i + k)) := by
  cases left <;> cases right <;> simp only [Match, MatchSide]

/-- A BTree accepts `s` exactly when `s` is `a ++ b ++ c` with the Value accepting
`b`, the left side `a` and the right side `c`. -/
theorem Match_BTree_iff (value : Matcher) (left right : Option Matcher) (s : Str) :
    Match (.BTree value left right) s = true ↔
      ∃ a b c, s = a ++ b ++ c ∧ Match value b = true ∧ MatchSide left a = true ∧
        MatchSide right c = true := by
  rw [Match_BTree]
  simp only [List.any_eq_true, List.mem_range, Bool.and_eq_true]
  constructor
  · rintro ⟨i, _, k, _, ⟨hv, hl⟩, hr⟩
    refine ⟨s.take i, (s.drop i).take k, s.drop (i + k), ?_, hv, hl, hr⟩
    have h1 : s.drop (i + k) = (s.drop i).drop k := by
      rw [List.drop_drop, Nat.add_comm]
    rw [h1, List.append_assoc, List.take_append_drop, List.take_append_drop]
  · rintro ⟨a, b, c, rfl, hv, hl, hr⟩
    refine ⟨a.length, by simp only [List.length_append]; omega, b.length,
      by simp only [List.length_append]; omega, ⟨?_, ?_⟩, ?_⟩
    · have : ((a ++ b ++ c).drop a.length).take b.length = b := by
        rw [List.append_assoc, List.drop_left, List.take_left]
      rw [this]; exact hv
    · have : (a ++ b ++ c).take a.length = a := by
        rw [List.append_assoc, List.take_left]
      rw [this]; exact hl
    · have : (a ++ b ++ c).drop (a.length + b.length) = c := by
        rw [← List.length_append, List.drop_left]
      rw [this]; exact hr

/-- The tree `BTree{Raw l, nil, Suffix t}` accepts `s` exactly when `s` starts with
`l`, ends with `t` and is long enough to hold both without overlap. -/
theorem Match_BTree_Raw_Suffix (l t s : Str) :
    Match (.BTree (.Raw l) none (some (.Suffix t))) s = true ↔
      l <+: s ∧ t <:+ s ∧ l.length + t.length ≤ s.length := by
  rw [Match_BTree_iff]
  constructor
  · rintro ⟨a, b, c, rfl, hb, ha, hc⟩
    simp only [Match, decide_eq_true_eq] at hb
    simp only [MatchSide, List.isEmpty_iff] at ha
    simp only [MatchSide, Match, decide_eq_true_eq] at hc
    subst hb ha
    refine ⟨⟨c, by simp⟩, ?_, ?_⟩
    · obtain ⟨u, rfl⟩ := hc
      exact ⟨b ++ u, by simp⟩
    · have := hc.length_le
      simp only [List.nil_append, List.length_append]
      omega
  · rintro ⟨⟨c, rfl⟩, ht, hlen⟩
    refine ⟨[], l, c, by simp, by simp [Match], by simp [MatchSide], ?_⟩
    simp only [MatchSide, Match, decide_eq_true_eq]
    apply List.suffix_of_suffix_length_le ht (List.suffix_append l c)
    simp only [List.length_append] at hlen
    omega

/-- C4 (code evaluated at the failing input): the tree `BTree{Raw a, nil, Suffix a}`
rejects the string `a`, but `optimize` returns `Every[Prefix a, Suffix a]` for it,
which accepts `a`; likewise for `BTree{Raw a, Prefix a, nil}`. -/
theorem prefix_suffix_rewrite_overlap :
    Match (.BTree (.Raw ['a']) none (some (.Suffix ['a']))) ['a'] = false ∧
    optimize (.BTree (.Raw ['a']) none (some (.Suffix ['a'])))
      = .Every [.Prefix ['a'], .Suffix ['a']] ∧
    Match (.BTree (.Raw ['a']) (some (.Prefix ['a'])) none) ['a'] = false ∧
    optimize (.BTree (.Raw ['a']) (some (.Prefix ['a'])) none)
      = .Every [.Prefix ['a'], .Suffix ['a']] ∧
    Match (.Every [.Prefix ['a'], .Suffix ['a']]) ['a'] = true := by
  refine ⟨?_, rfl, ?_, rfl, ?_⟩ <;> decide

/-- C5: for every literal `l` and string `s`, `BTree{Raw l, nil, Super}` accepts `s`
iff `s` starts with `l`, `BTree{Raw l, Super, nil}` iff `s` ends with `l`, and
`BTree{Raw l, Super, Super}` iff `l` occurs in `s`; `optimize` returns exactly
`Prefix l`, `Suffix l` and `Contains{l, false}` for them, which accept the same
strings. -/
theorem super_rewrites_preserve_match (l s : Str) :
    ((Match (.BTree (.Raw l) none (some .Super)) s = true ↔ l <+: s) ∧
      optimize (.BTree (.Raw l) none (some .Super)) = .Prefix l ∧
      (Match (.Prefix l) s = true ↔ l <+: s)) ∧
    ((Match (.BTree (.Raw l) (some .Super) none) s = true ↔ l <:+ s) ∧
      optimize (.BTree (.Raw l) (some .Super) none) = .Suffix l ∧
      (Match (.Suffix l) s = true ↔ l <:+ s)) ∧
    ((Match (.BTree (.Raw l) (some .Super) (some .Super)) s = true ↔ l <:+: s) ∧
      optimize (.BTree (.Raw l) (some .Super) (some .Super)) = .Contains l false ∧
      (Match (.Contains l false) s = true ↔ l <:+: s)) := by
  refine ⟨⟨?_, rfl, by simp [Match]⟩, ⟨?_, rfl, by simp [Match]⟩, ⟨?_, rfl, by simp [Match]⟩⟩
  · rw [Match_BTree_iff]
    constructor
    · rintro ⟨a, b, c, rfl, hb, ha, -⟩
      simp only [Match, decide_eq_true_eq] at hb
      simp only [MatchSide, List.isEmpty_iff] at ha
      subst hb ha
      exact ⟨c, by simp⟩
    · rintro ⟨c, rfl⟩
      exact ⟨[], l, c, by simp, by simp [Match], by simp [MatchSide], by simp [MatchSide, Match]⟩
  · rw [Match_BTree_iff]
    constructor
    · rintro ⟨a, b, c, rfl, hb, -, hc⟩
      simp only [Match, decide_eq_true_eq] at hb
      simp only [MatchSide, List.isEmpty_iff] at hc
      subst hb hc
      exact ⟨a, by simp⟩
    · rintro ⟨a, rfl⟩
      exact ⟨a, l, [], by simp, by simp [Match], by simp [MatchSide, Match], by simp [MatchSide]⟩
  · rw [Match_BTree_iff]
    constructor
    · rintro ⟨a, b, c, rfl, hb, -, -⟩
      simp only [Match, decide_eq_true_eq] at hb
      subst hb
      exact ⟨a, c, rfl⟩
    · rintro ⟨a, c, rfl⟩
      exact ⟨a, l, c, rfl, by simp [Match], by simp [MatchSide, Match],
        by simp [MatchSide, Match]⟩

/-- C7: for every literal text `t`, `optimize` collapses the one-node tree
`BTree{Value: Raw t, Left: nil, Right: nil}` to `Raw t`, which is not a BTree. -/
theorem optimize_degenerate_collapse (t : Str) :
    optimize (.BTree (.Raw t) none none) = .Raw t ∧
    ∀ value left right, optimize (.BTree (.Raw t) none none) ≠ .BTree value left right := by
  refine ⟨rfl, ?_⟩
  intro value left right h
  exact Matcher.noConfusion h

/-! ### The anchor scan and the unrolling of `convertMatchers` -/

theorem scanAnchor_spec : ∀ (ms : List Matcher) (k : Nat) (acc : Option (Nat × Matcher))
    (idx : Nat) (val : Matcher), scanAnchor k acc ms = some (idx, val) →
    acc = some (idx, val) ∨
      (k ≤ idx ∧ ms[idx - k]? = some val ∧ isPrimitive val = true)
  | [], k, acc, idx, val, h => by
    left
    simpa [scanAnchor] using h
  | m :: ms, k, acc, idx, val, h => by
    unfold scanAnchor at h
    by_cases hp : isPrimitive m = true
    · by_cases hr : isRaw m = true
      · simp only [hp, hr, if_true, Option.some.injEq, Prod.mk.injEq] at h
        obtain ⟨rfl, rfl⟩ := h
        right
        exact ⟨Nat.le_refl _, by simp, hp⟩
      · simp only [hp, hr, if_true] at h
        rcases scanAnchor_spec ms (k + 1) _ idx val h with h1 | ⟨h1, h2, h3⟩
        · simp only [Option.some.injEq, Prod.mk.injEq] at h1
          obtain ⟨rfl, rfl⟩ := h1
          right
          exact ⟨Nat.le_refl _, by simp, hp⟩
        · right
          refine ⟨by omega, ?_, h3⟩
          have : idx - k = (idx - (k + 1)) + 1 := by omega
          rw [this, List.getElem?_cons_succ]
          exact h2
    · simp only [hp] at h
      rcases scanAnchor_spec ms (k + 1) acc idx val h with h1 | ⟨h1, h2, h3⟩
      · left
        exact h1
      · right
        refine ⟨by omega, ?_, h3⟩
        have : idx - k = (idx - (k + 1)) + 1 := by omega
        rw [this, List.getElem?_cons_succ]
        exact h2

theorem scanAnchor_zero (ms : List Matcher) (idx : Nat) (val : Matcher)
    (h : scanAnchor 0 none ms = some (idx, val)) :
    ms[idx]? = some val ∧ isPrimitive val = true ∧ idx < ms.length := by
  rcases scanAnchor_spec ms 0 none idx val h with h1 | ⟨_, h2, h3⟩
  · exact Option.noConfusion h1
  · simp only [Nat.sub_zero] at h2
    refine ⟨h2, h3, ?_⟩
    by_contra hlt
    rw [List.getElem?_eq_none (by omega)] at h2
    exact Option.noConfusion h2

theorem convertBody_congr (f g : List Matcher → Except CompileError Matcher)
    (ms : List Matcher)
    (hfg : ∀ xs : List Matcher, 0 < xs.length → xs.length < ms.length → f xs = g xs) :
    convertBody f ms = convertBody g ms := by
  unfold convertBody
  cases glueMatchers ms with
  | some m => rfl
  | none =>
    cases hs : scanAnchor 0 none ms with
    | none => rfl
    | some p =>
      obtain ⟨idx, val⟩ := p
      have hidx := (scanAnchor_zero ms idx val hs).2.2
      have hleft : 0 < (ms.take idx).length → f (ms.take idx) = g (ms.take idx) := by
        intro h0
        apply hfg _ h0
        simp only [List.length_take]
        omega
      have hright : ∀ xs : List Matcher,
          xs = (if ms.length > idx + 1 then ms.drop (idx + 1) else []) →
          0 < xs.length → f xs = g xs := by
        intro xs hxs h0
        apply hfg _ h0
        subst hxs
        by_cases hc : ms.length > idx + 1
        · simp only [hc, if_true, List.length_drop]
          omega
        · simp [hc] at h0
      simp only
      by_cases h1 : 0 < (ms.take idx).length
      · rw [if_pos h1, if_pos h1, hleft h1]
        by_cases h2 : 0 < (if ms.length > idx + 1 then ms.drop (idx + 1) else []).length
        · rw [if_pos h2, if_pos h2, hright _ rfl h2]
        · rw [if_neg h2, if_neg h2]
      · rw [if_neg h1, if_neg h1]
        by_cases h2 : 0 < (if ms.length > idx + 1 then ms.drop (idx + 1) else []).length
        · rw [if_pos h2, if_pos h2, hright _ rfl h2]
        · rw [if_neg h2, if_neg h2]

theorem convertMatchersAux_fuel : ∀ (f1 f2 : Nat) (ms : List Matcher),
    ms.length ≤ f1 → ms.length ≤ f2 → convertMatchersAux f1 ms = convertMatchersAux f2 ms
  | 0, 0, _, _, _ => rfl
  | 0, f2 + 1, ms, h1, _ => by
    unfold convertMatchersAux
    apply convertBody_congr
    intro xs _ hlt
    omega
  | f1 + 1, 0, ms, _, h2 => by
    unfold convertMatchersAux
    apply convertBody_congr
    intro xs _ hlt
    omega
  | f1 + 1, f2 + 1, ms, h1, h2 => by
    unfold convertMatchersAux
    apply convertBody_congr
    intro xs _ hlt
    exact convertMatchersAux_fuel f1 f2 xs (by omega) (by omega)

theorem convertMatchersAux_zero (ms : List Matcher) :
    convertMatchersAux 0 ms
      = convertBody (fun xs => .error (.needPrimitive xs)) ms := rfl

theorem convertMatchersAux_succ (fuel : Nat) (ms : List Matcher) :
    convertMatchersAux (fuel + 1) ms = convertBody (convertMatchersAux fuel) ms := rfl

/-- The unrolled `convertMatchers` satisfies the recursive equation of the source:
its fuel never runs out. -/
theorem convertMatchers_eq (ms : List Matcher) :
    convertMatchers ms = convertBody convertMatchers ms := by
  show convertMatchersAux ms.length ms
    = convertBody (fun xs => convertMatchersAux xs.length xs) ms
  cases hn : ms.length with
  | zero =>
    rw [convertMatchersAux_zero]
    apply convertBody_congr
    intro xs _ hlt
    omega
  | succ n =>
    rw [convertMatchersAux_succ]
    apply convertBody_congr
    intro xs _ hlt
    exact convertMatchersAux_fuel n xs.length xs (by omega) (Nat.le_refl _)

/-! ### Anchor selection -/

theorem isPrimitive_of_isRaw (m : Matcher) (h : isRaw m = true) : isPrimitive m = true := by
  cases m <;> first | rfl | exact Bool.noConfusion h

theorem glueKind_of_isRaw (st : GlueState) (m : Matcher) (h : isRaw m = true) :
    glueKind st m = none := by
  cases m <;> first | rfl | exact Bool.noConfusion h

theorem glueLoop_none_of_mem : ∀ (ms : List Matcher) (i : Nat) (st : GlueState) (m : Matcher),
    m ∈ ms → (∀ st1, glueKind st1 m = none) → glueLoop i st ms = none
  | [], _, _, _, hm, _ => by simp at hm
  | x :: xs, i, st, m, hm, hk => by
    unfold glueLoop
    cases hstep : glueStep i st x with
    | none => rfl
    | some st1 =>
      simp only
      rcases List.mem_cons.mp hm with rfl | hmem
      · simp [glueStep, hk] at hstep
      · exact glueLoop_none_of_mem xs (i + 1) st1 m hmem hk

theorem glueMatchers_none_of_mem (ms : List Matcher) (m : Matcher) (hlen : 2 ≤ ms.length)
    (hm : m ∈ ms) (hk : ∀ st, glueKind st m = none) : glueMatchers ms = none := by
  match ms, hlen, hm with
  | a :: b :: rest, _, hm =>
    simp only [glueMatchers]
    rw [glueLoop_none_of_mem (a :: b :: rest) 0 _ m hm hk]

theorem glueMatchers_none_length (ms : List Matcher) (h : glueMatchers ms = none)
    (hne : ms ≠ []) : 2 ≤ ms.length := by
  match ms, h, hne with
  | [m], h, _ => simp [glueMatchers] at h
  | a :: b :: rest, _, _ => simp

/-- The shape of a successful `convertMatchers` once fusion has failed and the
scan has chosen the anchor `val` at index `idx`. -/
theorem convertMatchers_tree (ms : List Matcher) (idx : Nat) (val r : Matcher)
    (hg : glueMatchers ms = none) (hs : scanAnchor 0 none ms = some (idx, val))
    (hok : convertMatchers ms = .ok r) :
    ∃ l rt, r = .BTree val l rt ∧
      (idx = 0 → l = none) ∧
      (idx ≠ 0 → ∃ x, convertMatchers (ms.take idx) = .ok x ∧ l = some x) ∧
      (idx + 1 = ms.length → rt = none) ∧
      (idx + 1 ≠ ms.length → ∃ y, convertMatchers (ms.drop (idx + 1)) = .ok y ∧ rt = some y) := by
  have hidx := (scanAnchor_zero ms idx val hs).2.2
  rw [convertMatchers_eq] at hok
  unfold convertBody at hok
  simp only [hg, hs] at hok
  have hlen : (ms.take idx).length = idx := by
    simp only [List.length_take]; omega
  rw [hlen] at hok
  have hrlen : ∀ h : idx + 1 < ms.length, 0 < (ms.drop (idx + 1)).length := by
    intro h
    simp only [List.length_drop]; omega
  by_cases h0 : idx = 0
  · have hpos : ¬ 0 < idx := by omega
    simp only [hpos, if_false, gt_iff_lt] at hok
    by_cases h1 : idx + 1 = ms.length
    · have hc : ¬ idx + 1 < ms.length := by omega
      simp only [hc, if_false, List.length_nil, Nat.lt_irrefl] at hok
      injection hok with hok
      exact ⟨none, none, hok.symm, fun _ => rfl, fun h => absurd h0 h, fun _ => rfl,
        fun h => absurd h1 h⟩
    · have hc : idx + 1 < ms.length := by omega
      simp only [hc, if_true, hrlen hc] at hok
      cases hr : convertMatchers (ms.drop (idx + 1)) with
      | error e =>
        rw [hr] at hok
        exact Except.noConfusion hok
      | ok y =>
        rw [hr] at hok
        injection hok with hok
        exact ⟨none, some y, hok.symm, fun _ => rfl, fun h => absurd h0 h,
          fun h => absurd h h1, fun _ => ⟨y, rfl, rfl⟩⟩
  · have hpos : 0 < idx := Nat.pos_of_ne_zero h0
    simp only [hpos, if_true, gt_iff_lt] at hok
    cases hl : convertMatchers (ms.take idx) with
    | error e =>
      rw [hl] at hok
      exact Except.noConfusion hok
    | ok x =>
      rw [hl] at hok
      by_cases h1 : idx + 1 = ms.length
      · have hc : ¬ idx + 1 < ms.length := by omega
        simp only [hc, if_false, List.length_nil, Nat.lt_irrefl] at hok
        injection hok with hok
        exact ⟨some x, none, hok.symm, fun h => absurd h h0, fun _ => ⟨x, rfl, rfl⟩,
          fun _ => rfl, fun h => absurd h1 h⟩
      · have hc : idx + 1 < ms.length := by omega
        simp only [hc, if_true, hrlen hc] at hok
        cases hr : convertMatchers (ms.drop (idx + 1)) with
        | error e =>
          rw [hr] at hok
          exact Except.noConfusion hok
        | ok y =>
          rw [hr] at hok
          injection hok with hok
          exact ⟨some x, some y, hok.symm, fun h => absurd h h0, fun _ => ⟨x, rfl, rfl⟩,
            fun h => absurd h h1, fun _ => ⟨y, rfl, rfl⟩⟩

theorem scanAnchor_first_raw : ∀ (ms : List Matcher) (k : Nat) (acc : Option (Nat × Matcher))
    (i : Nat) (v : Matcher), ms[i]? = some v → isRaw v = true →
    (∀ j w, j < i → ms[j]? = some w → isRaw w = false) →
    scanAnchor k acc ms = some (k + i, v)
  | [], _, _, i, v, hv, _, _ => by simp at hv
  | m :: ms, k, acc, 0, v, hv, hraw, _ => by
    simp only [List.getElem?_cons_zero, Option.some.injEq] at hv
    subst hv
    simp [scanAnchor, hraw, isPrimitive_of_isRaw m hraw]
  | m :: ms, k, acc, i + 1, v, hv, hraw, hfirst => by
    have hm : isRaw m = false := hfirst 0 m (Nat.succ_pos i) (by simp)
    have hrec : ∀ acc1, scanAnchor (k + 1) acc1 ms = some (k + 1 + i, v) := fun acc1 =>
      scanAnchor_first_raw ms (k + 1) acc1 i v (by simpa using hv) hraw
        (fun j w hj hw => hfirst (j + 1) w (by omega) (by simpa using hw))
    unfold scanAnchor
    simp only [hm, Bool.false_eq_true, if_false, hrec]
    have : k + 1 + i = k + (i + 1) := by omega
    rw [this]
    split <;> rfl

theorem scanAnchor_no_primitive : ∀ (ms : List Matcher) (k : Nat) (acc : Option (Nat × Matcher)),
    (∀ m ∈ ms, isPrimitive m = false) → scanAnchor k acc ms = acc
  | [], _, _, _ => rfl
  | m :: ms, k, acc, h => by
    unfold scanAnchor
    rw [h m (List.mem_cons_self _ _)]
    simp only [Bool.false_eq_true, if_false]
    exact scanAnchor_no_primitive ms (k + 1) acc
      (fun x hx => h x (List.mem_cons_of_mem _ hx))

theorem scanAnchor_last_primitive : ∀ (ms : List Matcher) (k : Nat)
    (acc : Option (Nat × Matcher)) (i : Nat) (v : Matcher),
    (∀ m ∈ ms, isRaw m = false) → ms[i]? = some v → isPrimitive v = true →
    (∀ j w, i < j → ms[j]? = some w → isPrimitive w = false) →
    scanAnchor k acc ms = some (k + i, v)
  | [], _, _, i, v, _, hv, _, _ => by simp at hv
  | m :: ms, k, acc, 0, v, hnr, hv, hprim, hlast => by
    simp only [List.getElem?_cons_zero, Option.some.injEq] at hv
    subst hv
    have hm : isRaw m = false := hnr m (List.mem_cons_self _ _)
    unfold scanAnchor
    simp only [hprim, hm, if_true, Bool.false_eq_true, if_false, Nat.add_zero]
    apply scanAnchor_no_primitive
    intro x hx
    obtain ⟨n, hn⟩ := List.getElem?_of_mem hx
    exact hlast (n + 1) x (Nat.succ_pos n) (by simpa using hn)
  | m :: ms, k, acc, i + 1, v, hnr, hv, hprim, hlast => by
    have hm : isRaw m = false := hnr m (List.mem_cons_self _ _)
    have hrec : ∀ acc1, scanAnchor (k + 1) acc1 ms = some (k + 1 + i, v) := fun acc1 =>
      scanAnchor_last_primitive ms (k + 1) acc1 i v
        (fun x hx => hnr x (List.mem_cons_of_mem _ hx)) (by simpa using hv) hprim
        (fun j w hj hw => hlast (j + 1) w (by omega) (by simpa using hw))
    unfold scanAnchor
    simp only [hm, Bool.false_eq_true, if_false, hrec]
    have : k + 1 + i = k + (i + 1) := by omega
    rw [this]
    split <;> rfl

/-- C9: for every matcher sequence of length at least 2 whose element `v` at index
`i` is a Raw while no element before `i` is one, a successful `convertMatchers`
returns a BTree whose Value is `v`, whose Left is absent when `i = 0` and otherwise
the conversion of the elements before `i`, and whose Right is absent when `i` is the
last index and otherwise the conversion of the elements after `i`. -/
theorem convertMatchers_first_raw (ms : List Matcher) (i : Nat) (v r : Matcher)
    (hlen : 2 ≤ ms.length) (hv : ms[i]? = some v) (hraw : isRaw v = true)
    (hfirst : ∀ j w, j < i → ms[j]? = some w → isRaw w = false)
    (hok : convertMatchers ms = .ok r) :
    ∃ l rt, r = .BTree v l rt ∧
      (i = 0 → l = none) ∧
      (i ≠ 0 → ∃ x, convertMatchers (ms.take i) = .ok x ∧ l = some x) ∧
      (i + 1 = ms.length → rt = none) ∧
      (i + 1 ≠ ms.length → ∃ y, convertMatchers (ms.drop (i + 1)) = .ok y ∧ rt = some y) := by
  have hmem : v ∈ ms := List.getElem?_mem hv
  have hg : glueMatchers ms = none :=
    glueMatchers_none_of_mem ms v hlen hmem (fun st => glueKind_of_isRaw st v hraw)
  have hs : scanAnchor 0 none ms = some (i, v) := by
    have := scanAnchor_first_raw ms 0 none i v hv hraw hfirst
    simpa using this
  exact convertMatchers_tree ms i v r hg hs hok

/-- C10: for every matcher sequence that `glueMatchers` does not fuse, that contains
no Raw and whose element `v` at index `i` is a primitive while no element after `i`
is one, a successful `convertMatchers` returns a BTree whose Value is `v`, whose
Left is the conversion of the elements before `i` (absent when there is none) and
whose Right is the conversion of the elements after `i` (absent when there is
none). -/
theorem convertMatchers_last_primitive (ms : List Matcher) (i : Nat) (v r : Matcher)
    (hglue : glueMatchers ms = none) (hnoraw : ∀ m ∈ ms, isRaw m = false)
    (hv : ms[i]? = some v) (hprim : isPrimitive v = true)
    (hlast : ∀ j w, i < j → ms[j]? = some w → isPrimitive w = false)
    (hok : convertMatchers ms = .ok r) :
    ∃ l rt, r = .BTree v l rt ∧
      (i = 0 → l = none) ∧
      (i ≠ 0 → ∃ x, convertMatchers (ms.take i) = .ok x ∧ l = some x) ∧
      (i + 1 = ms.length → rt = none) ∧
      (i + 1 ≠ ms.length → ∃ y, convertMatchers (ms.drop (i + 1)) = .ok y ∧ rt = some y) := by
  have hs : scanAnchor 0 none ms = some (i, v) := by
    have := scanAnchor_last_primitive ms 0 none i v hnoraw hv hprim hlast
    simpa using this
  exact convertMatchers_tree ms i v r hglue hs hok

/-- C9 (witness): the sequence `[Single, Raw a, Single, Raw b, Single]` is split at
`Raw a`, the first literal. -/
theorem convertMatchers_first_raw_witness :
    ∃ l rt,
      Matcher.BTree (.Raw ['a']) (some (.Single []))
          (some (.BTree (.Raw ['b']) (some (.Single [])) (some (.Single []))))
        = .BTree (.Raw ['a']) l rt ∧
      (1 = 0 → l = none) ∧
      (1 ≠ 0 → ∃ x, convertMatchers
          ([Matcher.Single [], .Raw ['a'], .Single [], .Raw ['b'], .Single []].take 1) = .ok x ∧
        l = some x) ∧
      (1 + 1 = [Matcher.Single [], .Raw ['a'], .Single [], .Raw ['b'], .Single []].length →
        rt = none) ∧
      (1 + 1 ≠ [Matcher.Single [], .Raw ['a'], .Single [], .Raw ['b'], .Single []].length →
        ∃ y, convertMatchers
          ([Matcher.Single [], .Raw ['a'], .Single [], .Raw ['b'], .Single []].drop (1 + 1))
            = .ok y ∧ rt = some y) :=
  convertMatchers_first_raw [.Single [], .Raw ['a'], .Single [], .Raw ['b'], .Single []] 1
    (.Raw ['a'])
    (.BTree (.Raw ['a']) (some (.Single []))
      (some (.BTree (.Raw ['b']) (some (.Single [])) (some (.Single [])))))
    (by decide) rfl rfl
    (by
      intro j w hj hw
      have hj0 : j = 0 := by omega
      subst hj0
      simp only [List.getElem?_cons_zero, Option.some.injEq] at hw
      subst hw
      rfl)
    rfl

/-- C10 (witness): the sequence `[AnyOf[Raw x], Range a-z, Range 0-9, AnyOf[Raw y]]`
holds no literal and is split at `Range 0-9`, its last primitive. -/
theorem convertMatchers_last_primitive_witness :
    ∃ l rt,
      Matcher.BTree (.Range '0' '9' false)
          (some (.BTree (.Range 'a' 'z' false) (some (.AnyOf [.Raw ['x']])) none))
          (some (.AnyOf [.Raw ['y']]))
        = .BTree (.Range '0' '9' false) l rt ∧
      (2 = 0 → l = none) ∧
      (2 ≠ 0 → ∃ x, convertMatchers
          ([Matcher.AnyOf [.Raw ['x']], .Range 'a' 'z' false, .Range '0' '9' false,
            .AnyOf [.Raw ['y']]].take 2) = .ok x ∧ l = some x) ∧
      (2 + 1 = [Matcher.AnyOf [.Raw ['x']], .Range 'a' 'z' false, .Range '0' '9' false,
            .AnyOf [.Raw ['y']]].length → rt = none) ∧
      (2 + 1 ≠ [Matcher.AnyOf [.Raw ['x']], .Range 'a' 'z' false, .Range '0' '9' false,
            .AnyOf [.Raw ['y']]].length →
        ∃ y, convertMatchers
          ([Matcher.AnyOf [.Raw ['x']], .Range 'a' 'z' false, .Range '0' '9' false,
            .AnyOf [.Raw ['y']]].drop (2 + 1)) = .ok y ∧ rt = some y) :=
  convertMatchers_last_primitive
    [.AnyOf [.Raw ['x']], .Range 'a' 'z' false, .Range '0' '9' false, .AnyOf [.Raw ['y']]] 2
    (.Range '0' '9' false)
    (.BTree (.Range '0' '9' false)
      (some (.BTree (.Range 'a' 'z' false) (some (.AnyOf [.Raw ['x']])) none))
      (some (.AnyOf [.Raw ['y']])))
    rfl
    (by
      intro m hm
      simp only [List.mem_cons, List.mem_singleton, List.not_mem_nil, or_false] at hm
      rcases hm with rfl | rfl | rfl | rfl <;> rfl)
    rfl rfl
    (by
      intro j w hj hw
      have hj3 : j = 3 ∨ 4 ≤ j := by omega
      rcases hj3 with rfl | h4
      · simp only [List.getElem?_cons_succ, List.getElem?_cons_zero, Option.some.injEq] at hw
        subst hw
        rfl
      · rw [List.getElem?_eq_none (by simpa using h4)] at hw
        exact Option.noConfusion hw)
    rfl

/-! ### No one-node literal tree in the compiled matcher -/

theorem noOneNodeTree_BTree (value : Matcher) (left right : Option Matcher) :
    noOneNodeTree (.BTree value left right) =
      (!isOneNodeTree (.BTree value left right) && noOneNodeTree value &&
        noOneNodeTreeSide left && noOneNodeTreeSide right) := by
  cases left <;> cases right <;> simp only [noOneNodeTree, noOneNodeTreeSide]

theorem noOneNodeTreeList_iff : ∀ ms : List Matcher,
    noOneNodeTreeList ms = true ↔ ∀ m ∈ ms, noOneNodeTree m = true
  | [] => by simp [noOneNodeTreeList]
  | m :: ms => by
    simp only [noOneNodeTreeList, Bool.and_eq_true, List.mem_cons, forall_eq_or_imp,
      noOneNodeTreeList_iff ms]

theorem isOneNodeTree_false_of_side (value : Matcher) (l r : Option Matcher)
    (h : l = none → r = none → False) : isOneNodeTree (.BTree value l r) = false := by
  cases l with
  | some x => cases value <;> rfl
  | none =>
    cases r with
    | some y => cases value <;> rfl
    | none => exact absurd rfl (fun hr => h rfl hr)

theorem optimizeBTree_noOneNodeTree (value : Matcher) (l r : Option Matcher)
    (hv : noOneNodeTree value = true) (hl : noOneNodeTreeSide l = true)
    (hr : noOneNodeTreeSide r = true) : noOneNodeTree (optimizeBTree value l r) = true := by
  unfold optimizeBTree
  split
  · split
    case h_7 h1 _ _ _ _ _ =>
      rw [noOneNodeTree_BTree, isOneNodeTree_false_of_side _ l r h1, hv, hl, hr]
      rfl
    all_goals simp [noOneNodeTree, noOneNodeTreeList]
  · rename_i hnr
    rw [noOneNodeTree_BTree, hv, hl, hr]
    have : isOneNodeTree (.BTree value l r) = false := by
      cases value <;> first | rfl | exact absurd rfl (hnr _)
    rw [this]
    rfl

theorem optimize_noOneNodeTree : ∀ m : Matcher, noOneNodeTree m = true →
    noOneNodeTree (optimize m) = true
  | .BTree value left right, h => by
    rw [noOneNodeTree_BTree] at h
    simp only [Bool.and_eq_true] at h
    obtain ⟨⟨⟨_, hv⟩, hl⟩, hr⟩ := h
    rw [optimize_BTree]
    apply optimizeBTree_noOneNodeTree _ _ _ hv
    · cases left with
      | none => rfl
      | some x => exact optimize_noOneNodeTree x hl
    · cases right with
      | none => rfl
      | some x => exact optimize_noOneNodeTree x hr
  | .Any sep, _ => by
    by_cases h : sep = [] <;> simp [optimize, h, noOneNodeTree]
  | .Raw _, h => h
  | .Single _, h => h
  | .Super, h => h
  | .List _ _, h => h
  | .Range _ _ _, h => h
  | .Prefix _, h => h
  | .Suffix _, h => h
  | .Contains _ _, h => h
  | .Min _, h => h
  | .Max _, h => h
  | .Every _, h => h
  | .AnyOf _, h => h

theorem glueResult_noOneNodeTree (st : GlueState) : noOneNodeTree (glueResult st) = true := by
  unfold glueResult
  split_ifs <;> simp [noOneNodeTree, noOneNodeTreeList]

theorem glueMatchers_noOneNodeTree (ms : List Matcher) (g : Matcher)
    (hms : ∀ m ∈ ms, noOneNodeTree m = true) (hg : glueMatchers ms = some g) :
    noOneNodeTree g = true := by
  match ms, hms, hg with
  | [], _, hg => exact Option.noConfusion hg
  | [m], hms, hg =>
    simp only [glueMatchers, Option.some.injEq] at hg
    subst hg
    exact hms m (List.mem_singleton_self m)
  | a :: b :: rest, _, hg =>
    simp only [glueMatchers] at hg
    cases hl : glueLoop 0 ⟨false, false, false, 0, []⟩ (a :: b :: rest) with
    | none =>
      rw [hl] at hg
      exact Option.noConfusion hg
    | some st =>
      rw [hl] at hg
      simp only [Option.some.injEq] at hg
      subst hg
      exact glueResult_noOneNodeTree st

theorem convertMatchers_of_glue (ms : List Matcher) (g : Matcher)
    (hg : glueMatchers ms = some g) : convertMatchers ms = .ok g := by
  rw [convertMatchers_eq]
  unfold convertBody
  rw [hg]

theorem convertMatchers_of_no_anchor (ms : List Matcher) (hg : glueMatchers ms = none)
    (hs : scanAnchor 0 none ms = none) :
    convertMatchers ms = .error (.needPrimitive ms) := by
  rw [convertMatchers_eq]
  unfold convertBody
  rw [hg, hs]

theorem convertMatchers_noOneNodeTree : ∀ (n : Nat) (ms : List Matcher) (r : Matcher),
    ms.length ≤ n → (∀ m ∈ ms, noOneNodeTree m = true) → convertMatchers ms = .ok r →
    noOneNodeTree r = true := by
  intro n
  induction n with
  | zero =>
    intro ms r hlen _ hok
    have hnil : ms = [] := List.eq_nil_of_length_eq_zero (by omega)
    subst hnil
    exact Except.noConfusion hok
  | succ n ih =>
    intro ms r hlen hms hok
    cases hg : glueMatchers ms with
    | some g =>
      rw [convertMatchers_of_glue ms g hg] at hok
      injection hok with hok
      subst hok
      exact glueMatchers_noOneNodeTree ms g hms hg
    | none =>
      cases hs : scanAnchor 0 none ms with
      | none =>
        rw [convertMatchers_of_no_anchor ms hg hs] at hok
        exact Except.noConfusion hok
      | some p =>
        obtain ⟨idx, val⟩ := p
        obtain ⟨hval, _, hidx⟩ := scanAnchor_zero ms idx val hs
        obtain ⟨l, rt, rfl, hl0, hl1, hr0, hr1⟩ := convertMatchers_tree ms idx val r hg hs hok
        have h2 : 2 ≤ ms.length :=
          glueMatchers_none_length ms hg (by intro h; subst h; simp at hidx)
        have hside : l = none → rt = none → False := by
          intro hl hr
          have hi0 : idx = 0 := by
            by_contra hne
            obtain ⟨x, _, hx⟩ := hl1 hne
            rw [hl] at hx
            exact Option.noConfusion hx
          have hi1 : idx + 1 = ms.length := by
            by_contra hne
            obtain ⟨y, _, hy⟩ := hr1 hne
            rw [hr] at hy
            exact Option.noConfusion hy
          omega
        rw [noOneNodeTree_BTree, isOneNodeTree_false_of_side val l rt hside,
          hms val (List.getElem?_mem hval)]
        have hL : noOneNodeTreeSide l = true := by
          by_cases h0 : idx = 0
          · rw [hl0 h0]; rfl
          · obtain ⟨x, hx, rfl⟩ := hl1 h0
            exact ih (ms.take idx) x (by simp only [List.length_take]; omega)
              (fun m hm => hms m (List.mem_of_mem_take hm)) hx
        have hR : noOneNodeTreeSide rt = true := by
          by_cases h1 : idx + 1 = ms.length
          · rw [hr0 h1]; rfl
          · obtain ⟨y, hy, rfl⟩ := hr1 h1
            exact ih (ms.drop (idx + 1)) y (by simp only [List.length_drop]; omega)
              (fun m hm => hms m (List.mem_of_mem_drop hm)) hy
        rw [hL, hR]
        rfl

mutual
theorem doNode_noOneNodeTree : ∀ (n : Node) (s : Str) (m : Matcher),
    doNode n s = .ok m → noOneNodeTree m = true
  | .Pattern children, s, m, h => by
    simp only [doNode] at h
    cases hc : doChildren children s with
    | error e =>
      rw [hc] at h
      exact Except.noConfusion h
    | ok ms =>
      rw [hc] at h
      simp only at h
      cases hcv : convertMatchers ms with
      | error e =>
        rw [hcv] at h
        exact Except.noConfusion h
      | ok r =>
        rw [hcv] at h
        injection h with h
        subst h
        exact optimize_noOneNodeTree r
          (convertMatchers_noOneNodeTree ms.length ms r (Nat.le_refl _)
            (doChildren_noOneNodeTree children s ms hc) hcv)
  | .AnyOf children, s, m, h => by
    simp only [doNode] at h
    cases hc : doChildren children s with
    | error e =>
      rw [hc] at h
      exact Except.noConfusion h
    | ok ms =>
      rw [hc] at h
      injection h with h
      subst h
      apply optimize_noOneNodeTree
      simp only [noOneNodeTree]
      exact (noOneNodeTreeList_iff ms).mpr (doChildren_noOneNodeTree children s ms hc)
  | .List chars not, s, m, h => by
    simp only [doNode] at h
    injection h with h
    subst h
    rfl
  | .Range lo hi not, s, m, h => by
    simp only [doNode] at h
    injection h with h
    subst h
    rfl
  | .Any, s, m, h => by
    simp only [doNode] at h
    injection h with h
    subst h
    exact optimize_noOneNodeTree _ rfl
  | .Super, s, m, h => by
    simp only [doNode] at h
    injection h with h
    subst h
    rfl
  | .Single, s, m, h => by
    simp only [doNode] at h
    injection h with h
    subst h
    rfl
  | .Text text, s, m, h => by
    simp only [doNode] at h
    injection h with h
    subst h
    rfl
  | .Unknown, s, m, h => by
    simp only [doNode] at h
    exact Except.noConfusion h
theorem doChildren_noOneNodeTree : ∀ (children : List Node) (s : Str) (ms : List Matcher),
    doChildren children s = .ok ms → ∀ m ∈ ms, noOneNodeTree m = true
  | [], s, ms, h => by
    simp only [doChildren] at h
    injection h with h
    subst h
    intro m hm
    simp at hm
  | desc :: rest, s, ms, h => by
    simp only [doChildren] at h
    cases hd : doNode desc s with
    | error e =>
      rw [hd] at h
      exact Except.noConfusion h
    | ok x =>
      rw [hd] at h
      cases hr : doChildren rest s with
      | error e =>
        rw [hr] at h
        exact Except.noConfusion h
      | ok xs =>
        rw [hr] at h
        injection h with h
        subst h
        intro m hm
        rcases List.mem_cons.mp hm with rfl | hmem
        · exact optimize_noOneNodeTree x (doNode_noOneNodeTree desc s x hd)
        · exact doChildren_noOneNodeTree rest s xs hr m hmem
end

/-- C8: for every AST and separator string for which `compile` succeeds, the
returned matcher contains at no depth (root, side or Value of a BTree, child of an
Every or AnyOf) a BTree whose Value is a Raw literal and whose Left and Right are
both absent. -/
theorem compile_no_one_node_tree (ast : Node) (s : Str) (m : Matcher)
    (h : compile ast s = .ok m) : noOneNodeTree m = true :=
  doNode_noOneNodeTree ast s m h

/-- C8 (witness): the compiled matcher of `a?b`, a BTree of three nodes, holds no
one-node literal tree. -/
theorem compile_no_one_node_tree_witness :
    noOneNodeTree (.BTree (.Raw ['a']) none
      (some (.BTree (.Raw ['b']) (some (.Single [])) none))) = true :=
  compile_no_one_node_tree (.Pattern [.Text ['a'], .Single, .Text ['b']]) []
    (.BTree (.Raw ['a']) none (some (.BTree (.Raw ['b']) (some (.Single [])) none))) rfl

/-! ### Compiling a valid AST -/

theorem scanAnchor_acc_some : ∀ (ms : List Matcher) (k : Nat) (p : Nat × Matcher),
    ∃ q, scanAnchor k (some p) ms = some q
  | [], _, p => ⟨p, rfl⟩
  | m :: ms, k, p => by
    unfold scanAnchor
    split
    · split
      · exact ⟨_, rfl⟩
      · exact scanAnchor_acc_some ms (k + 1) (k, m)
    · exact scanAnchor_acc_some ms (k + 1) p

theorem scanAnchor_some_of_primitive : ∀ (ms : List Matcher) (k : Nat)
    (acc : Option (Nat × Matcher)) (m : Matcher), m ∈ ms → isPrimitive m = true →
    ∃ q, scanAnchor k acc ms = some q
  | [], _, _, m, hm, _ => by simp at hm
  | x :: xs, k, acc, m, hm, hp => by
    unfold scanAnchor
    split
    · split
      · exact ⟨_, rfl⟩
      · exact scanAnchor_acc_some xs (k + 1) (k, x)
    · rename_i hx
      rcases List.mem_cons.mp hm with rfl | hmem
      · exact absurd hp hx
      · exact scanAnchor_some_of_primitive xs (k + 1) acc m hmem hp

/-- A successful `convertMatchers` from the successes of its recursive calls. -/
theorem convertMatchers_build (ms : List Matcher) (idx : Nat) (val : Matcher)
    (hg : glueMatchers ms = none) (hs : scanAnchor 0 none ms = some (idx, val))
    (hl : idx ≠ 0 → ∃ x, convertMatchers (ms.take idx) = .ok x)
    (hr : idx + 1 ≠ ms.length → ∃ y, convertMatchers (ms.drop (idx + 1)) = .ok y) :
    ∃ r, convertMatchers ms = .ok r := by
  have hidx := (scanAnchor_zero ms idx val hs).2.2
  rw [convertMatchers_eq]
  unfold convertBody
  simp only [hg, hs]
  have hlen : (ms.take idx).length = idx := by
    simp only [List.length_take]; omega
  rw [hlen]
  have hrlen : ∀ h : idx + 1 < ms.length, 0 < (ms.drop (idx + 1)).length := by
    intro h
    simp only [List.length_drop]; omega
  by_cases h0 : idx = 0
  · have hpos : ¬ 0 < idx := by omega
    simp only [hpos, if_false, gt_iff_lt]
    by_cases h1 : idx + 1 = ms.length
    · have hc : ¬ idx + 1 < ms.length := by omega
      simp only [hc, if_false, List.length_nil, Nat.lt_irrefl]
      exact ⟨_, rfl⟩
    · have hc : idx + 1 < ms.length := by omega
      obtain ⟨y, hy⟩ := hr h1
      simp only [hc, if_true, hrlen hc, hy]
      exact ⟨_, rfl⟩
  · have hpos : 0 < idx := Nat.pos_of_ne_zero h0
    obtain ⟨x, hx⟩ := hl h0
    simp only [hpos, if_true, gt_iff_lt, hx]
    by_cases h1 : idx + 1 = ms.length
    · have hc : ¬ idx + 1 < ms.length := by omega
      simp only [hc, if_false, List.length_nil, Nat.lt_irrefl]
      exact ⟨_, rfl⟩
    · have hc : idx + 1 < ms.length := by omega
      obtain ⟨y, hy⟩ := hr h1
      simp only [hc, if_true, hrlen hc, hy]
      exact ⟨_, rfl⟩

/-- The tree builder succeeds on every non-empty sequence in which of every two
adjacent matchers at least one is a primitive. -/
theorem convertMatchers_ok_of_chain : ∀ (n : Nat) (ms : List Matcher), ms.length ≤ n →
    ms ≠ [] →
    List.Chain' (fun a b => isPrimitive a = true ∨ isPrimitive b = true) ms →
    ∃ r, convertMatchers ms = .ok r := by
  intro n
  induction n with
  | zero =>
    intro ms hlen hne _
    exact absurd (List.eq_nil_of_length_eq_zero (by omega)) hne
  | succ n ih =>
    intro ms hlen hne hch
    cases hg : glueMatchers ms with
    | some g => exact ⟨g, convertMatchers_of_glue ms g hg⟩
    | none =>
      have h2 := glueMatchers_none_length ms hg hne
      have hprim : ∃ m ∈ ms, isPrimitive m = true := by
        match ms, h2, hch with
        | a :: b :: rest, _, hch =>
          rcases (List.chain'_cons.mp hch).1 with h | h
          · exact ⟨a, by simp, h⟩
          · exact ⟨b, by simp, h⟩
      obtain ⟨m, hm, hp⟩ := hprim
      obtain ⟨q, hq⟩ := scanAnchor_some_of_primitive ms 0 none m hm hp
      obtain ⟨idx, val⟩ := q
      have hidx := (scanAnchor_zero ms idx val hq).2.2
      apply convertMatchers_build ms idx val hg hq
      · intro h0
        apply ih (ms.take idx) (by simp only [List.length_take]; omega) _ (hch.take idx)
        intro hnil
        have := congrArg List.length hnil
        simp only [List.length_take, List.length_nil] at this
        omega
      · intro h1
        apply ih (ms.drop (idx + 1)) (by simp only [List.length_drop]; omega) _
          (hch.drop (idx + 1))
        intro hnil
        have := congrArg List.length hnil
        simp only [List.length_drop, List.length_nil] at this
        omega

theorem isPrimitive_optimize (m : Matcher) (h : isPrimitive m = true) :
    isPrimitive (optimize m) = true := by
  cases m <;> first | exact h | exact Bool.noConfusion h | skip
  rename_i sep
  by_cases hs : sep = [] <;> simp [optimize, hs, isPrimitive]

theorem doNode_leaf (n : Node) (s : Str) (m : Matcher) (hleaf : isLeafNode n = true)
    (h : doNode n s = .ok m) : isPrimitive m = true := by
  cases n <;> first | exact Bool.noConfusion hleaf | skip
  all_goals
    simp only [doNode] at h
    injection h with h
    subst h
    exact isPrimitive_optimize _ rfl

theorem chain_of_leaves : ∀ (cs : List Node) (ms : List Matcher),
    List.Forall₂ (fun c m => isLeafNode c = true → isPrimitive m = true) cs ms →
    adjacentLeaf cs = true →
    List.Chain' (fun a b => isPrimitive a = true ∨ isPrimitive b = true) ms
  | [], _, h, _ => by
    cases h
    exact List.chain'_nil
  | [c], _, h, _ => by
    cases h with
    | cons _ h2 =>
      cases h2
      exact List.chain'_singleton _
  | c1 :: c2 :: cs, _, h, ha => by
    cases h with
    | cons h1 h2 =>
      cases h2 with
      | cons h3 h4 =>
        simp only [adjacentLeaf, Bool.and_eq_true, Bool.or_eq_true] at ha
        refine List.chain'_cons.mpr ⟨?_, chain_of_leaves (c2 :: cs) _ (List.Forall₂.cons h3 h4) ha.2⟩
        rcases ha.1 with hl | hl
        · exact Or.inl (h1 hl)
        · exact Or.inr (h3 hl)

mutual
theorem doNode_ok : ∀ (n : Node) (s : Str), validAst n = true → separatedGroups n = true →
    ∃ m, doNode n s = .ok m
  | .Pattern children, s, hv, hs => by
    simp only [validAst, Bool.and_eq_true, Bool.not_eq_true', List.isEmpty_eq_false] at hv
    simp only [separatedGroups, Bool.and_eq_true] at hs
    obtain ⟨ms, hms, hfa⟩ := doChildren_ok children s hv.2 hs.2
    have hne : ms ≠ [] := by
      intro h
      subst h
      cases hfa
      exact hv.1 rfl
    obtain ⟨r, hr⟩ := convertMatchers_ok_of_chain ms.length ms (Nat.le_refl _) hne
      (chain_of_leaves children ms hfa hs.1)
    exact ⟨optimize r, by simp only [doNode, hms, hr]⟩
  | .AnyOf children, s, hv, hs => by
    simp only [validAst, Bool.and_eq_true] at hv
    simp only [separatedGroups] at hs
    obtain ⟨ms, hms, _⟩ := doChildren_ok children s hv.2 hs
    exact ⟨optimize (.AnyOf ms), by simp only [doNode, hms]⟩
  | .List chars not, s, _, _ => ⟨_, by simp only [doNode]; rfl⟩
  | .Range lo hi not, s, _, _ => ⟨_, by simp only [doNode]; rfl⟩
  | .Any, s, _, _ => ⟨_, by simp only [doNode]; rfl⟩
  | .Super, s, _, _ => ⟨_, by simp only [doNode]; rfl⟩
  | .Single, s, _, _ => ⟨_, by simp only [doNode]; rfl⟩
  | .Text text, s, _, _ => ⟨_, by simp only [doNode]; rfl⟩
  | .Unknown, s, hv, _ => by
    simp only [validAst] at hv
    exact Bool.noConfusion hv
theorem doChildren_ok : ∀ (children : List Node) (s : Str), validAstList children = true →
    separatedGroupsList children = true →
    ∃ ms, doChildren children s = .ok ms ∧
      List.Forall₂ (fun c m => isLeafNode c = true → isPrimitive m = true) children ms
  | [], s, _, _ => ⟨[], by simp only [doChildren], List.Forall₂.nil⟩
  | desc :: rest, s, hv, hs => by
    simp only [validAstList, Bool.and_eq_true] at hv
    simp only [separatedGroupsList, Bool.and_eq_true] at hs
    obtain ⟨m, hm⟩ := doNode_ok desc s hv.1 hs.1
    obtain ⟨ms, hms, hfa⟩ := doChildren_ok rest s hv.2 hs.2
    refine ⟨optimize m :: ms, by simp only [doChildren, hm, hms], List.Forall₂.cons ?_ hfa⟩
    intro hleaf
    exact isPrimitive_optimize m (doNode_leaf desc s m hleaf hm)
end

/-- C6 (counterexample): the AST of the pattern `{a}{b}`, two alternation groups in
a row, is built from the eight node kinds with no childless Pattern or AnyOf node,
and `compile` fails on it with the need-at-least-one-primitive error. -/
theorem compile_valid_ast_no_anchor :
    validAst (.Pattern [.AnyOf [.Pattern [.Text ['a']]], .AnyOf [.Pattern [.Text ['b']]]])
      = true ∧
    compile (.Pattern [.AnyOf [.Pattern [.Text ['a']]], .AnyOf [.Pattern [.Text ['b']]]]) []
      = .error (.needPrimitive [.AnyOf [.Raw ['a']], .AnyOf [.Raw ['b']]]) :=
  ⟨rfl, rfl⟩

/-- C6 (amended): for every AST built only from the eight node kinds in which every
Pattern and AnyOf node has at least one child and no Pattern node has two adjacent
children that are both Pattern or AnyOf nodes, and for every separator string,
`compile` returns a matcher and no error. -/
theorem compile_ok_of_separated_groups (ast : Node) (s : Str)
    (hvalid : validAst ast = true) (hsep : separatedGroups ast = true) :
    ∃ m, compile ast s = .ok m :=
  doNode_ok ast s hvalid hsep

/-- C6 (witness): the AST of the pattern `{a,b?}c{d}` compiles with separator `/`. -/
theorem compile_ok_of_separated_groups_witness :
    ∃ m, compile (.Pattern [.AnyOf [.Pattern [.Text ['a']], .Pattern [.Text ['b'], .Single]],
      .Text ['c'], .AnyOf [.Pattern [.Text ['d']]]]) ['/'] = .ok m :=
  compile_ok_of_separated_groups
    (.Pattern [.AnyOf [.Pattern [.Text ['a']], .Pattern [.Text ['b'], .Single]],
      .Text ['c'], .AnyOf [.Pattern [.Text ['d']]]]) ['/'] rfl rfl

/-! ### End-to-end shapes -/

/-- C14: for every pair of literal texts `a` and `b`, `compile` of
`Pattern[Text a, Any, Text b]` with the empty separator string succeeds and returns
exactly `Every[Prefix a, Suffix b]`. -/
theorem compile_literal_any_literal (a b : Str) :
    compile (.Pattern [.Text a, .Any, .Text b]) [] = .ok (.Every [.Prefix a, .Suffix b]) := by
  have hchildren : doChildren [.Text a, .Any, .Text b] []
      = .ok [.Raw a, .Super, .Raw b] := rfl
  have htree : convertMatchers [.Raw a, .Super, .Raw b]
      = .ok (.BTree (.Raw a) none (some (.BTree (.Raw b) (some .Super) none))) := rfl
  have hopt : optimize (.BTree (.Raw a) none (some (.BTree (.Raw b) (some .Super) none)))
      = .Every [.Prefix a, .Suffix b] := rfl
  simp only [compile, doNode, hchildren, htree, hopt]

/-- C15: for every literal text `t` and the empty separator string, `compile` of
`Pattern[Any, Text t, Any]` returns exactly `Contains{t, false}`, of
`Pattern[Text t, Any]` exactly `Prefix t` and of `Pattern[Any, Text t]` exactly
`Suffix t`. -/
theorem compile_any_literal_shapes (t : Str) :
    compile (.Pattern [.Any, .Text t, .Any]) [] = .ok (.Contains t false) ∧
    compile (.Pattern [.Text t, .Any]) [] = .ok (.Prefix t) ∧
    compile (.Pattern [.Any, .Text t]) [] = .ok (.Suffix t) :=
  ⟨rfl, rfl, rfl⟩

/-! ### The run fuser -/

theorem glueKind_of_not_fusible (st : GlueState) (m : Matcher) (h : fusibleSep m = none) :
    glueKind st m = none := by
  cases m <;> first | rfl | exact Option.noConfusion h | skip
  rename_i list not
  cases not
  · rfl
  · exact Option.noConfusion h

theorem glueStep_fusible (i : Nat) (st : GlueState) (m : Matcher) (sep : Str)
    (hm : fusibleSep m = some sep) (hs : i = 0 ∨ st.separator = sep) :
    glueStep i st m = some ⟨st.hasAny || isAny m, st.hasSuper || isSuper m,
      st.hasSingle || isSingleWidth m, st.min + (if isSingleWidth m = true then 1 else 0),
      sep⟩ := by
  cases m <;> first | exact Option.noConfusion hm | skip
  case List list not =>
    cases not
    · exact Option.noConfusion hm
    · simp only [fusibleSep, Option.some.injEq] at hm
      subst hm
      rcases hs with h0 | h1
      · simp [glueStep, glueKind, h0, isAny, isSuper, isSingleWidth]
      · by_cases h0 : i = 0 <;> simp [glueStep, glueKind, h0, h1, isAny, isSuper, isSingleWidth]
  all_goals
    simp only [fusibleSep, Option.some.injEq] at hm
    subst hm
    rcases hs with h0 | h1
    · simp [glueStep, glueKind, h0, isAny, isSuper, isSingleWidth]
    · by_cases h0 : i = 0 <;> simp [glueStep, glueKind, h0, h1, isAny, isSuper, isSingleWidth]

theorem glueStep_mismatch (i : Nat) (st : GlueState) (m : Matcher) (sep : Str)
    (hm : fusibleSep m = some sep) (hi : i ≠ 0) (hs : sep ≠ st.separator) :
    glueStep i st m = none := by
  cases m <;> first | exact Option.noConfusion hm | skip
  case List list not =>
    cases not
    · exact Option.noConfusion hm
    · simp only [fusibleSep, Option.some.injEq] at hm
      subst hm
      simp [glueStep, glueKind, hi, hs]
  all_goals
    simp only [fusibleSep, Option.some.injEq] at hm
    subst hm
    simp [glueStep, glueKind, hi, hs]

theorem glueLoop_fusible (sep : Str) : ∀ (ms : List Matcher) (i : Nat) (st : GlueState),
    (∀ m ∈ ms, fusibleSep m = some sep) → st.separator = sep →
    glueLoop i st ms = some ⟨st.hasAny || ms.any isAny, st.hasSuper || ms.any isSuper,
      st.hasSingle || ms.any isSingleWidth, st.min + ms.countP isSingleWidth, sep⟩
  | [], i, st, _, hs => by
    subst hs
    simp [glueLoop]
  | m :: ms, i, st, hall, hs => by
    unfold glueLoop
    rw [glueStep_fusible i st m sep (hall m (List.mem_cons_self _ _)) (Or.inr hs)]
    simp only
    rw [glueLoop_fusible sep ms (i + 1) _ (fun x hx => hall x (List.mem_cons_of_mem _ hx)) rfl]
    simp only [List.any_cons, Bool.or_assoc, List.countP_cons, Nat.add_assoc]
    congr 2
    omega

/-- The value of `glueMatchers` on two or more elements of fusible kinds with one
common separator set: the part after the loop, run on the flags and the count. -/
theorem glueMatchers_fusible (ms : List Matcher) (sep : Str) (hlen : 2 ≤ ms.length)
    (hall : ∀ m ∈ ms, fusibleSep m = some sep) :
    glueMatchers ms = some (glueResult ⟨ms.any isAny, ms.any isSuper,
      ms.any isSingleWidth, ms.countP isSingleWidth, sep⟩) := by
  match ms, hlen, hall with
  | a :: b :: rest, _, hall =>
    simp only [glueMatchers]
    have h1 : glueLoop 0 ⟨false, false, false, 0, []⟩ (a :: b :: rest)
        = glueLoop 1 ⟨isAny a, isSuper a, isSingleWidth a,
            (if isSingleWidth a = true then 1 else 0), sep⟩ (b :: rest) := by
      conv_lhs => unfold glueLoop
      rw [glueStep_fusible 0 _ a sep (hall a (List.mem_cons_self _ _)) (Or.inl rfl)]
      simp
    rw [h1, glueLoop_fusible sep (b :: rest) 1 _
      (fun x hx => hall x (List.mem_cons_of_mem _ hx)) rfl]
    simp only [List.any_cons, List.countP_cons]
    congr 3
    omega

theorem fusible_kind (m : Matcher) (sep : Str) (hm : fusibleSep m = some sep) :
    (isSuper m = true ∧ isAny m = false ∧ isSingleWidth m = false) ∨
    (isSuper m = false ∧ isAny m = true ∧ isSingleWidth m = false) ∨
    (isSuper m = false ∧ isAny m = false ∧ isSingleWidth m = true) := by
  cases m <;> first | exact Option.noConfusion hm | skip
  case List list not =>
    cases not
    · exact Option.noConfusion hm
    · exact Or.inr (Or.inr ⟨rfl, rfl, rfl⟩)
  case Super => exact Or.inl ⟨rfl, rfl, rfl⟩
  case Any => exact Or.inr (Or.inl ⟨rfl, rfl, rfl⟩)
  case Single => exact Or.inr (Or.inr ⟨rfl, rfl, rfl⟩)

theorem fusible_all_isSuper (sep : Str) : ∀ ms : List Matcher,
    (∀ m ∈ ms, fusibleSep m = some sep) →
    ms.all isSuper = (!ms.any isAny && !ms.any isSingleWidth)
  | [], _ => rfl
  | m :: ms, hall => by
    have ih := fusible_all_isSuper sep ms (fun x hx => hall x (List.mem_cons_of_mem _ hx))
    simp only [List.all_cons, List.any_cons, ih]
    rcases fusible_kind m sep (hall m (List.mem_cons_self _ _)) with ⟨h1, h2, h3⟩ | ⟨h1, h2, h3⟩ |
      ⟨h1, h2, h3⟩ <;> simp [h1, h2, h3]

theorem fusible_all_isAny (sep : Str) : ∀ ms : List Matcher,
    (∀ m ∈ ms, fusibleSep m = some sep) →
    ms.all isAny = (!ms.any isSuper && !ms.any isSingleWidth)
  | [], _ => rfl
  | m :: ms, hall => by
    have ih := fusible_all_isAny sep ms (fun x hx => hall x (List.mem_cons_of_mem _ hx))
    simp only [List.all_cons, List.any_cons, ih]
    rcases fusible_kind m sep (hall m (List.mem_cons_self _ _)) with ⟨h1, h2, h3⟩ | ⟨h1, h2, h3⟩ |
      ⟨h1, h2, h3⟩ <;> simp [h1, h2, h3]

theorem fusible_some_kind (sep : Str) (ms : List Matcher) (hne : ms ≠ [])
    (hall : ∀ m ∈ ms, fusibleSep m = some sep) :
    (ms.any isSuper || ms.any isAny || ms.any isSingleWidth) = true := by
  match ms, hne, hall with
  | m :: rest, _, hall =>
    simp only [List.any_cons]
    rcases fusible_kind m sep (hall m (List.mem_cons_self _ _)) with ⟨h1, h2, h3⟩ | ⟨h1, h2, h3⟩ |
      ⟨h1, h2, h3⟩ <;> simp [h1, h2, h3]

theorem any_wild (ms : List Matcher) :
    (ms.any fun m => isSuper m || isAny m) = (ms.any isSuper || ms.any isAny) := by
  induction ms with
  | nil => rfl
  | cons m ms ih =>
    simp only [List.any_cons, ih]
    cases isSuper m <;> cases isAny m <;> simp

theorem countP_pos_eq_any (ms : List Matcher) :
    decide (0 < ms.countP isSingleWidth) = ms.any isSingleWidth := by
  rw [Bool.eq_iff_iff]
  simp only [decide_eq_true_eq, List.countP_pos_iff, List.any_eq_true]

/-- On a non-empty sequence of fusible elements the part of `glueMatchers` after
the loop computes the result table of the specification. -/
theorem glueResult_eq_fusionTable (ms : List Matcher) (sep : Str) (hne : ms ≠ [])
    (hall : ∀ m ∈ ms, fusibleSep m = some sep) :
    glueResult ⟨ms.any isAny, ms.any isSuper, ms.any isSingleWidth,
      ms.countP isSingleWidth, sep⟩ = fusionTable ms sep := by
  have hk := countP_pos_eq_any ms
  have hsome := fusible_some_kind sep ms hne hall
  unfold glueResult fusionTable
  simp only [fusible_all_isSuper sep ms hall, fusible_all_isAny sep ms hall, any_wild]
  generalize ms.countP isSingleWidth = k at hk ⊢
  generalize ms.any isAny = A at hk hsome ⊢
  generalize ms.any isSuper = S at hk hsome ⊢
  generalize ms.any isSingleWidth = G at hk hsome ⊢
  have hk2 : 0 < k ↔ G = true := by
    rw [← hk]; simp
  by_cases hsep : sep = [] <;> cases A <;> cases S <;> cases G <;>
    simp [hsep] at hsome hk2 ⊢ <;> simp [hk2]

/-- C11: for every sequence of length at least 2 whose elements are all Super, Any,
Single or negated List with the one common separator set `sep`, `glueMatchers`
returns the matcher of the result table: Super when only Super elements occur,
`Any{sep}` when only Any elements occur, `Min{k}` when `k > 0`, a Super or Any
occurs and `sep` is empty, and otherwise the Every of `Min{k}` if `k > 0`, `Max{k}`
if `k > 0` and no Super or Any occurs, and `Contains{sep, true}` if `sep` is not
empty, in this order. -/
theorem glueMatchers_result_table (ms : List Matcher) (sep : Str) (hlen : 2 ≤ ms.length)
    (hall : ∀ m ∈ ms, fusibleSep m = some sep) :
    glueMatchers ms = some (fusionTable ms sep) := by
  have hne : ms ≠ [] := by
    intro h
    subst h
    simp at hlen
  rw [glueMatchers_fusible ms sep hlen hall, glueResult_eq_fusionTable ms sep hne hall]

/-- C11 (witness): `[Any{/}, Single{/}, negated List{/}]` fuses to
`Every[Min 2, Contains{/, true}]`. -/
theorem glueMatchers_result_table_witness :
    glueMatchers [.Any ['/'], .Single ['/'], .List ['/'] true]
      = some (fusionTable [.Any ['/'], .Single ['/'], .List ['/'] true] ['/']) ∧
    fusionTable [.Any ['/'], .Single ['/'], .List ['/'] true] ['/']
      = .Every [.Min 2, .Contains ['/'] true] :=
  ⟨glueMatchers_result_table [.Any ['/'], .Single ['/'], .List ['/'] true] ['/'] (by decide)
    (by
      intro m hm
      simp only [List.mem_cons, List.mem_singleton, List.not_mem_nil, or_false] at hm
      rcases hm with rfl | rfl | rfl <;> rfl),
   rfl⟩

/-- C12 (counterexample): on the one-element sequence `[Raw a]`, whose element is of
no fusible kind, `glueMatchers` returns that element and not the not-fusible value. -/
theorem glueMatchers_single_raw :
    fusibleSep (.Raw ['a']) = none ∧ glueMatchers [.Raw ['a']] = some (.Raw ['a']) :=
  ⟨rfl, rfl⟩

/-- C12 (amended): for every matcher sequence of length at least 2 that contains a
matcher which is not Super, not Any, not Single and not a negated List,
`glueMatchers` returns the not-fusible value; a sequence of length 1 is returned as
its only element, whatever the kind of that element. -/
theorem glueMatchers_not_fusible_kind (ms : List Matcher) :
    (∀ m : Matcher, 2 ≤ ms.length → m ∈ ms → fusibleSep m = none →
      glueMatchers ms = none) ∧
    (∀ x : Matcher, ms = [x] → glueMatchers ms = some x) := by
  constructor
  · intro m hlen hm hkind
    exact glueMatchers_none_of_mem ms m hlen hm (fun st => glueKind_of_not_fusible st m hkind)
  · intro x hx
    subst hx
    rfl

/-- C12 (witness): a Range between two Single elements stops the fusion, and the
one-element sequences `[Range a-z]` and `[Single]` are returned as their element. -/
theorem glueMatchers_not_fusible_kind_witness :
    glueMatchers [.Single [], .Range 'a' 'z' false, .Single []] = none ∧
    glueMatchers [.Range 'a' 'z' false] = some (.Range 'a' 'z' false) ∧
    glueMatchers [.Single []] = some (.Single []) :=
  ⟨(glueMatchers_not_fusible_kind [.Single [], .Range 'a' 'z' false, .Single []]).1
      (.Range 'a' 'z' false) (by decide) (by simp) rfl,
    (glueMatchers_not_fusible_kind [.Range 'a' 'z' false]).2 (.Range 'a' 'z' false) rfl,
    (glueMatchers_not_fusible_kind [.Single []]).2 (.Single []) rfl⟩

theorem glueKind_some (st st1 : GlueState) (m : Matcher) (sep : Str)
    (h : glueKind st m = some (sep, st1)) :
    fusibleSep m = some sep ∧ st1.separator = st.separator := by
  cases m <;> first | exact Option.noConfusion h | skip
  case List list not =>
    cases not
    · exact Option.noConfusion h
    · simp only [glueKind, Bool.not_true, Bool.false_eq_true, if_false, Option.some.injEq,
        Prod.mk.injEq] at h
      obtain ⟨rfl, rfl⟩ := h
      exact ⟨rfl, rfl⟩
  all_goals
    simp only [glueKind, Option.some.injEq, Prod.mk.injEq] at h
    obtain ⟨rfl, rfl⟩ := h
    exact ⟨rfl, rfl⟩

theorem glueStep_some (i : Nat) (st st1 : GlueState) (m : Matcher)
    (h : glueStep i st m = some st1) :
    ∃ sep, fusibleSep m = some sep ∧ st1.separator = sep ∧ (i ≠ 0 → st.separator = sep) := by
  unfold glueStep at h
  cases hk : glueKind st m with
  | none =>
    rw [hk] at h
    exact Option.noConfusion h
  | some p =>
    obtain ⟨sep, st0⟩ := p
    obtain ⟨hf, hsep⟩ := glueKind_some st st0 m sep hk
    rw [hk] at h
    simp only at h
    by_cases h0 : i = 0
    · simp only [h0, if_true, Option.some.injEq] at h
      subst h
      exact ⟨sep, hf, rfl, fun hne => absurd h0 hne⟩
    · simp only [h0, if_false] at h
      by_cases he : sep = st0.separator
      · simp only [he, if_true, Option.some.injEq] at h
        subst h
        exact ⟨sep, hf, he.symm, fun _ => by rw [← hsep, he]⟩
      · simp only [he, if_false] at h
        exact Option.noConfusion h

theorem glueLoop_mismatch : ∀ (rest : List Matcher) (i : Nat) (st : GlueState) (m : Matcher)
    (s1 : Str), i ≠ 0 → m ∈ rest → fusibleSep m = some s1 → s1 ≠ st.separator →
    glueLoop i st rest = none
  | [], _, _, _, _, _, hm, _, _ => by simp at hm
  | x :: xs, i, st, m, s1, hi, hm, hsep, hne => by
    unfold glueLoop
    cases hstep : glueStep i st x with
    | none => rfl
    | some st1 =>
      simp only
      obtain ⟨sep, hf, h1, h2⟩ := glueStep_some i st st1 x hstep
      rcases List.mem_cons.mp hm with rfl | hmem
      · rw [glueStep_mismatch i st m s1 hsep hi hne] at hstep
        exact Option.noConfusion hstep
      · apply glueLoop_mismatch xs (i + 1) st1 m s1 (Nat.succ_ne_zero i) hmem hsep
        rw [h1, ← h2 hi]
        exact hne

/-- An element whose separator set differs from the one of the first element makes
`glueMatchers` return nil. -/
theorem glueMatchers_mismatch (first : Matcher) (rest : List Matcher) (m : Matcher)
    (s0 s1 : Str) (hfirst : fusibleSep first = some s0) (hm : m ∈ rest)
    (hsep : fusibleSep m = some s1) (hne : s1 ≠ s0) : glueMatchers (first :: rest) = none := by
  match rest, hm with
  | b :: tail, hm =>
    simp only [glueMatchers]
    have h1 : glueLoop 0 ⟨false, false, false, 0, []⟩ (first :: b :: tail) = none := by
      conv_lhs => unfold glueLoop
      rw [glueStep_fusible 0 _ first s0 hfirst (Or.inl rfl)]
      simp only
      exact glueLoop_mismatch (b :: tail) 1 _ m s1 (by decide) hm hsep hne
    rw [h1]

/-- C13: in a sequence of Super, Any, Single and negated-List matchers in which some
element has a separator set different from the one of the first element,
`glueMatchers` returns the not-fusible value; in particular it never fuses a
sequence that holds a Super and an Any or Single with a non-empty separator set. -/
theorem glueMatchers_separator_mismatch (ms : List Matcher) :
    (∀ first rest m s0 s1, ms = first :: rest → (∀ x ∈ ms, fusibleSep x ≠ none) →
      fusibleSep first = some s0 → m ∈ ms → fusibleSep m = some s1 → s1 ≠ s0 →
      glueMatchers ms = none) ∧
    (∀ x sep, Matcher.Super ∈ ms → x ∈ ms → (x = .Any sep ∨ x = .Single sep) → sep ≠ [] →
      glueMatchers ms = none) := by
  constructor
  · intro first rest m s0 s1 hms _ hfirst hm hsep hne
    subst hms
    rcases List.mem_cons.mp hm with rfl | hmem
    · rw [hfirst] at hsep
      injection hsep with hsep
      exact absurd hsep.symm hne
    · exact glueMatchers_mismatch first rest m s0 s1 hfirst hmem hsep hne
  · intro x sep hsuper hx hxk hsepne
    have hxsep : fusibleSep x = some sep := by
      rcases hxk with rfl | rfl <;> rfl
    match ms, hsuper, hx with
    | first :: rest, hsuper, hx =>
      cases hf : fusibleSep first with
      | none =>
        have hrest : rest ≠ [] := by
          intro h
          subst h
          simp only [List.mem_singleton] at hsuper
          subst hsuper
          exact Option.noConfusion hf
        have hlen : 2 ≤ (first :: rest).length := by
          cases rest with
          | nil => exact absurd rfl hrest
          | cons b tail => simp
        exact glueMatchers_none_of_mem (first :: rest) first hlen (List.mem_cons_self _ _)
          (fun st => glueKind_of_not_fusible st first hf)
      | some s0 =>
        by_cases h0 : s0 = []
        · subst h0
          rcases List.mem_cons.mp hx with rfl | hmem
          · rw [hxsep] at hf
            injection hf with hf
            exact absurd hf hsepne
          · exact glueMatchers_mismatch first rest x [] sep hf hmem hxsep hsepne
        · rcases List.mem_cons.mp hsuper with rfl | hmem
          · simp only [fusibleSep, Option.some.injEq] at hf
            exact absurd hf.symm h0
          · exact glueMatchers_mismatch first rest .Super s0 [] hf hmem rfl
              (fun h => h0 h.symm)

/-- C13 (witness): `[Single{/}, Any{/}, Single{.}]` is not fused, and neither is a
Super next to an `Any{/}`. -/
theorem glueMatchers_separator_mismatch_witness :
    glueMatchers [.Single ['/'], .Any ['/'], .Single ['.']] = none ∧
    glueMatchers [.Super, .Any ['/']] = none :=
  ⟨(glueMatchers_separator_mismatch [.Single ['/'], .Any ['/'], .Single ['.']]).1
      (.Single ['/']) [.Any ['/'], .Single ['.']] (.Single ['.']) ['/'] ['.'] rfl
      (by
        intro x hx
        simp only [List.mem_cons, List.mem_singleton, List.not_mem_nil, or_false] at hx
        rcases hx with rfl | rfl | rfl <;> simp [fusibleSep])
      rfl (by simp) rfl (by decide),
    (glueMatchers_separator_mismatch [.Super, .Any ['/']]).2 (.Any ['/']) ['/']
      (by simp) (by simp) (Or.inl rfl) (by simp)⟩

theorem doChildren_replicate_single (s : Str) : ∀ k : Nat,
    doChildren (List.replicate k .Single) s = .ok (List.replicate k (.Single s))
  | 0 => by simp only [List.replicate_zero, doChildren]
  | k + 1 => by
    simp only [List.replicate_succ, doChildren, doNode, doChildren_replicate_single s k]
    rfl

theorem glueMatchers_replicate_single (k : Nat) (hk : 2 ≤ k) :
    glueMatchers (List.replicate k (.Single [])) = some (.Every [.Min k, .Max k]) := by
  have hall : ∀ m ∈ List.replicate k (Matcher.Single []), fusibleSep m = some [] := by
    intro m hm
    rw [List.eq_of_mem_replicate hm]
    rfl
  rw [glueMatchers_fusible _ [] (by simpa using hk) hall]
  have hk0 : k ≠ 0 := by omega
  have hpos : 0 < k := by omega
  simp [glueResult, List.countP_replicate, isAny, isSuper, isSingleWidth, hk0, hpos]

/-- C16: for every `k` of at least 2, `compile` of a Pattern with exactly `k` Single
children and the empty separator string succeeds and returns exactly
`Every[Min{k}, Max{k}]`. -/
theorem compile_singles_exact_length (k : Nat) (hk : 2 ≤ k) :
    compile (.Pattern (List.replicate k .Single)) [] = .ok (.Every [.Min k, .Max k]) := by
  simp only [compile, doNode, doChildren_replicate_single,
    convertMatchers_of_glue _ _ (glueMatchers_replicate_single k hk)]
  rfl

/-- C16 (witness): the pattern of five single-character wildcards compiles to
`Every[Min 5, Max 5]`. -/
theorem compile_singles_exact_length_witness :
    compile (.Pattern [.Single, .Single, .Single, .Single, .Single]) []
      = .ok (.Every [.Min 5, .Max 5]) :=
  compile_singles_exact_length 5 (by decide)

/-! ### Alternation -/

theorem doNode_optimize_fixed (n : Node) (s : Str) (m : Matcher) (h : doNode n s = .ok m) :
    optimize m = m := by
  cases n with
  | Pattern children =>
    simp only [doNode] at h
    cases hc : doChildren children s with
    | error e =>
      rw [hc] at h
      exact Except.noConfusion h
    | ok ms =>
      rw [hc] at h
      simp only at h
      cases hcv : convertMatchers ms with
      | error e =>
        rw [hcv] at h
        exact Except.noConfusion h
      | ok r =>
        rw [hcv] at h
        injection h with h
        subst h
        exact optimize_idem_aux r
  | AnyOf children =>
    simp only [doNode] at h
    cases hc : doChildren children s with
    | error e =>
      rw [hc] at h
      exact Except.noConfusion h
    | ok ms =>
      rw [hc] at h
      injection h with h
      subst h
      exact optimize_idem_aux _
  | Unknown =>
    simp only [doNode] at h
    exact Except.noConfusion h
  | _ =>
    simp only [doNode] at h
    injection h with h
    subst h
    exact optimize_idem_aux _

theorem doChildren_all_ok (s : Str) : ∀ (cs : List Node) (ms : List Matcher),
    List.Forall₂ (fun c m => doNode c s = .ok m) cs ms → doChildren cs s = .ok ms
  | [], _, h => by
    cases h
    simp only [doChildren]
  | c :: cs, _, h => by
    cases h with
    | cons h1 h2 =>
      simp only [doChildren, h1, doChildren_all_ok s cs _ h2,
        doNode_optimize_fixed c s _ h1]

theorem doChildren_first_error (s : Str) (c : Node) (post : List Node) (e : CompileError)
    (hc : doNode c s = .error e) : ∀ pre : List Node,
    (∀ x ∈ pre, ∃ m, doNode x s = .ok m) → doChildren (pre ++ c :: post) s = .error e
  | [], _ => by simp only [List.nil_append, doChildren, hc]
  | x :: pre, hpre => by
    obtain ⟨m, hm⟩ := hpre x (List.mem_cons_self _ _)
    have ih := doChildren_first_error s c post e hc pre
      (fun y hy => hpre y (List.mem_cons_of_mem _ hy))
    show doChildren (x :: (pre ++ c :: post)) s = .error e
    simp only [doChildren, hm, ih]

/-- C17: for every AnyOf node with children `cs` and every separator string `s`, if
lowering each child alone succeeds, with the matchers `ms` in order, then lowering
the AnyOf node returns exactly `AnyOf ms`; and if lowering a child fails while all
children before it succeed, lowering the AnyOf node fails with the error of that
child. -/
theorem doNode_anyOf (cs : List Node) (s : Str) :
    (∀ ms, List.Forall₂ (fun c m => doNode c s = .ok m) cs ms →
      doNode (.AnyOf cs) s = .ok (.AnyOf ms)) ∧
    (∀ pre c post e, cs = pre ++ c :: post → (∀ x ∈ pre, ∃ m, doNode x s = .ok m) →
      doNode c s = .error e → doNode (.AnyOf cs) s = .error e) := by
  constructor
  · intro ms h
    simp only [doNode, doChildren_all_ok s cs ms h]
    rfl
  · intro pre c post e hcs hpre hc
    subst hcs
    simp only [doNode, doChildren_first_error s c post e hc pre hpre]

/-- C17 (witness): `{a*,??}` with separator `/` lowers to the AnyOf of the two
lowered branches, and an AnyOf whose second child is of an unknown kind fails with
the unknown-node error of that child. -/
theorem doNode_anyOf_witness :
    doNode (.AnyOf [.Pattern [.Text ['a'], .Any], .Pattern [.Single, .Single]]) ['/']
      = .ok (.AnyOf [.BTree (.Raw ['a']) none (some (.Any ['/'])),
          .Every [.Min 2, .Max 2, .Contains ['/'] true]]) ∧
    doNode (.AnyOf [.Text ['a'], .Unknown, .Pattern []]) ['/'] = .error .unknownNode :=
  ⟨(doNode_anyOf [.Pattern [.Text ['a'], .Any], .Pattern [.Single, .Single]] ['/']).1
      [.BTree (.Raw ['a']) none (some (.Any ['/'])),
        .Every [.Min 2, .Max 2, .Contains ['/'] true]]
      (List.Forall₂.cons rfl (List.Forall₂.cons rfl List.Forall₂.nil)),
    (doNode_anyOf [.Text ['a'], .Unknown, .Pattern []] ['/']).2 [.Text ['a']] .Unknown
      [.Pattern []] .unknownNode rfl
      (by
        intro x hx
        simp only [List.mem_singleton] at hx
        subst hx
        exact ⟨_, rfl⟩)
      rfl⟩

/-! ### The tree builder on primitives -/

theorem chain_of_primitives : ∀ ms : List Matcher, (∀ m ∈ ms, isPrimitive m = true) →
    List.Chain' (fun a b => isPrimitive a = true ∨ isPrimitive b = true) ms
  | [], _ => List.chain'_nil
  | [a], _ => List.chain'_singleton a
  | a :: b :: rest, h =>
    List.chain'_cons.mpr ⟨Or.inl (h a (List.mem_cons_self _ _)),
      chain_of_primitives (b :: rest) (fun x hx => h x (List.mem_cons_of_mem _ hx))⟩

/-- C18: on every sequence of length at least 1 all of whose elements are primitive
matchers `convertMatchers` returns a matcher and no error; its body calls itself
only on non-empty, strictly shorter sequences; and on the empty sequence it fails
with the need-at-least-one-primitive error. -/
theorem convertMatchers_primitives (ms : List Matcher) (hlen : 1 ≤ ms.length)
    (hprim : ∀ m ∈ ms, isPrimitive m = true) :
    (∃ r, convertMatchers ms = .ok r) ∧
    (convertMatchers ms = convertBody convertMatchers ms ∧
      ∀ f g : List Matcher → Except CompileError Matcher,
        (∀ xs : List Matcher, 0 < xs.length → xs.length < ms.length → f xs = g xs) →
        convertBody f ms = convertBody g ms) ∧
    convertMatchers [] = .error (.needPrimitive []) := by
  refine ⟨?_, ⟨convertMatchers_eq ms, fun f g h => convertBody_congr f g ms h⟩, rfl⟩
  apply convertMatchers_ok_of_chain ms.length ms (Nat.le_refl _) _ (chain_of_primitives ms hprim)
  intro h
  subst h
  simp at hlen

/-- C18 (witness): the primitives `[Range a-z, Raw x, Single]` are converted to a
tree. -/
theorem convertMatchers_primitives_witness :
    (∃ r, convertMatchers [.Range 'a' 'z' false, .Raw ['x'], .Single []] = .ok r) ∧
    (convertMatchers [.Range 'a' 'z' false, .Raw ['x'], .Single []]
        = convertBody convertMatchers [.Range 'a' 'z' false, .Raw ['x'], .Single []] ∧
      ∀ f g : List Matcher → Except CompileError Matcher,
        (∀ xs : List Matcher, 0 < xs.length →
          xs.length < [Matcher.Range 'a' 'z' false, .Raw ['x'], .Single []].length →
          f xs = g xs) →
        convertBody f [.Range 'a' 'z' false, .Raw ['x'], .Single []]
          = convertBody g [.Range 'a' 'z' false, .Raw ['x'], .Single []]) ∧
    convertMatchers [] = .error (.needPrimitive []) :=
  convertMatchers_primitives [.Range 'a' 'z' false, .Raw ['x'], .Single []] (by decide)
    (by
      intro m hm
      simp only [List.mem_cons, List.mem_singleton, List.not_mem_nil, or_false] at hm
      rcases hm with rfl | rfl | rfl <;> rfl)

theorem inorder_of_isPrimitive (m : Matcher) (h : isPrimitive m = true) : inorder m = [m] := by
  cases m <;> first | rfl | exact Bool.noConfusion h

theorem inorder_BTree (value : Matcher) (left right : Option Matcher) :
    inorder (.BTree value left right) = inorderSide left ++ [value] ++ inorderSide right := by
  cases left <;> cases right <;> simp only [inorder, inorderSide]

theorem take_getElem_drop (ms : List Matcher) (idx : Nat) (val : Matcher)
    (h : ms[idx]? = some val) : ms.take idx ++ [val] ++ ms.drop (idx + 1) = ms := by
  obtain ⟨hlt, hget⟩ := List.getElem?_eq_some_iff.mp h
  rw [List.append_assoc, List.singleton_append, ← hget, ← List.drop_eq_getElem_cons hlt,
    List.take_append_drop]

theorem convertMatchers_inorder_aux : ∀ (n : Nat) (ms : List Matcher), ms.length ≤ n →
    ms ≠ [] → (∀ m ∈ ms, isPrimitive m = true) →
    List.Chain' (fun a b => ¬ (isFusibleKind a = true ∧ isFusibleKind b = true)) ms →
    ∃ r, convertMatchers ms = .ok r ∧ inorder r = ms := by
  intro n
  induction n with
  | zero =>
    intro ms hlen hne _ _
    exact absurd (List.eq_nil_of_length_eq_zero (by omega)) hne
  | succ n ih =>
    intro ms hlen hne hprim hch
    cases hg : glueMatchers ms with
    | some g =>
      match ms, hne, hprim, hch, hg with
      | [m], _, hprim, _, hg =>
        simp only [glueMatchers, Option.some.injEq] at hg
        subst hg
        exact ⟨m, convertMatchers_of_glue [m] m rfl,
          inorder_of_isPrimitive m (hprim m (List.mem_singleton_self m))⟩
      | a :: b :: rest, _, _, hch, hg =>
        exfalso
        have hab := (List.chain'_cons.mp hch).1
        have hnone : ∃ x ∈ a :: b :: rest, fusibleSep x = none := by
          by_cases ha : fusibleSep a = none
          · exact ⟨a, by simp, ha⟩
          · by_cases hb : fusibleSep b = none
            · exact ⟨b, by simp, hb⟩
            · exfalso
              apply hab
              simp only [isFusibleKind, Option.isSome_iff_ne_none]
              exact ⟨ha, hb⟩
        obtain ⟨x, hx, hxn⟩ := hnone
        rw [glueMatchers_none_of_mem (a :: b :: rest) x (by simp) hx
          (fun st => glueKind_of_not_fusible st x hxn)] at hg
        exact Option.noConfusion hg
    | none =>
      have hmem : ∃ m, m ∈ ms := List.exists_mem_of_ne_nil ms hne
      obtain ⟨m, hm⟩ := hmem
      obtain ⟨q, hq⟩ := scanAnchor_some_of_primitive ms 0 none m hm (hprim m hm)
      obtain ⟨idx, val⟩ := q
      obtain ⟨hval, _, hidx⟩ := scanAnchor_zero ms idx val hq
      have hL : idx ≠ 0 → ∃ x, convertMatchers (ms.take idx) = .ok x ∧
          inorder x = ms.take idx := by
        intro h0
        apply ih (ms.take idx) (by simp only [List.length_take]; omega) _
          (fun x hx => hprim x (List.mem_of_mem_take hx)) (hch.take idx)
        intro hnil
        have := congrArg List.length hnil
        simp only [List.length_take, List.length_nil] at this
        omega
      have hR : idx + 1 ≠ ms.length → ∃ y, convertMatchers (ms.drop (idx + 1)) = .ok y ∧
          inorder y = ms.drop (idx + 1) := by
        intro h1
        apply ih (ms.drop (idx + 1)) (by simp only [List.length_drop]; omega) _
          (fun x hx => hprim x (List.mem_of_mem_drop hx)) (hch.drop (idx + 1))
        intro hnil
        have := congrArg List.length hnil
        simp only [List.length_drop, List.length_nil] at this
        omega
      obtain ⟨r, hr⟩ := convertMatchers_build ms idx val hg hq
        (fun h0 => (hL h0).imp fun _ h => h.1) (fun h1 => (hR h1).imp fun _ h => h.1)
      obtain ⟨l, rt, rfl, hl0, hl1, hr0, hr1⟩ := convertMatchers_tree ms idx val r hg hq hr
      refine ⟨_, hr, ?_⟩
      have hleft : inorderSide l = ms.take idx := by
        by_cases h0 : idx = 0
        · rw [hl0 h0, h0]
          rfl
        · obtain ⟨x, hx, rfl⟩ := hl1 h0
          obtain ⟨x1, hx1, hin⟩ := hL h0
          rw [hx] at hx1
          injection hx1 with hx1
          subst hx1
          exact hin
      have hright : inorderSide rt = ms.drop (idx + 1) := by
        by_cases h1 : idx + 1 = ms.length
        · rw [hr0 h1, h1, List.drop_length]
          rfl
        · obtain ⟨y, hy, rfl⟩ := hr1 h1
          obtain ⟨y1, hy1, hin⟩ := hR h1
          rw [hy] at hy1
          injection hy1 with hy1
          subst hy1
          exact hin
      rw [inorder_BTree, hleft, hright]
      exact take_getElem_drop ms idx val hval

/-- C20: for every non-empty sequence of primitive matchers in which no two adjacent
elements are both of a fusible kind (Super, Any, Single, negated List),
`convertMatchers` succeeds and the in-order traversal of its result is exactly the
input sequence. -/
theorem convertMatchers_inorder (ms : List Matcher) (hne : ms ≠ [])
    (hprim : ∀ m ∈ ms, isPrimitive m = true)
    (hadj : List.Chain' (fun a b => ¬ (isFusibleKind a = true ∧ isFusibleKind b = true)) ms) :
    ∃ r, convertMatchers ms = .ok r ∧ inorder r = ms :=
  convertMatchers_inorder_aux ms.length ms (Nat.le_refl _) hne hprim hadj

/-- C20 (witness): `[Single, Raw a, Any{/}, Range 0-9, Raw b]` is converted to a
tree whose in-order traversal is the sequence itself. -/
theorem convertMatchers_inorder_witness :
    ∃ r, convertMatchers [.Single [], .Raw ['a'], .Any ['/'], .Range '0' '9' false,
        .Raw ['b']] = .ok r ∧
      inorder r = [.Single [], .Raw ['a'], .Any ['/'], .Range '0' '9' false, .Raw ['b']] :=
  convertMatchers_inorder
    [.Single [], .Raw ['a'], .Any ['/'], .Range '0' '9' false, .Raw ['b']] (by simp)
    (by
      intro m hm
      simp only [List.mem_cons, List.mem_singleton, List.not_mem_nil, or_false] at hm
      rcases hm with rfl | rfl | rfl | rfl | rfl <;> rfl)
    (by
      simp only [List.chain'_cons, List.chain'_singleton, and_true]
      refine ⟨?_, ?_, ?_, ?_⟩ <;> simp [isFusibleKind, fusibleSep])

/-! ### No unrestricted Any in the compiled matcher -/

theorem noEmptyAny_BTree (value : Matcher) (left right : Option Matcher) :
    noEmptyAny (.BTree value left right) =
      (noEmptyAny value && noEmptyAnySide left && noEmptyAnySide right) := by
  cases left <;> cases right <;> simp only [noEmptyAny, noEmptyAnySide]

theorem noEmptyAnyList_iff : ∀ ms : List Matcher,
    noEmptyAnyList ms = true ↔ ∀ m ∈ ms, noEmptyAny m = true
  | [] => by simp [noEmptyAnyList]
  | m :: ms => by
    simp only [noEmptyAnyList, Bool.and_eq_true, List.mem_cons, forall_eq_or_imp,
      noEmptyAnyList_iff ms]

theorem optimizeBTree_noEmptyAny (value : Matcher) (l r : Option Matcher)
    (hv : noEmptyAny value = true) (hl : noEmptyAnySide l = true)
    (hr : noEmptyAnySide r = true) : noEmptyAny (optimizeBTree value l r) = true := by
  unfold optimizeBTree
  split
  · split
    case h_7 =>
      rw [noEmptyAny_BTree, hv, hl, hr]
      rfl
    all_goals simp [noEmptyAny, noEmptyAnyList]
  · rw [noEmptyAny_BTree, hv, hl, hr]
    rfl

theorem optimize_Any_noEmptyAny (sep : Str) : noEmptyAny (optimize (.Any sep)) = true := by
  by_cases h : sep = []
  · simp [optimize, h, noEmptyAny]
  · cases sep with
    | nil => exact absurd rfl h
    | cons c cs => simp [optimize, noEmptyAny]

theorem optimize_noEmptyAny : ∀ m : Matcher, noEmptyAny m = true →
    noEmptyAny (optimize m) = true
  | .BTree value left right, h => by
    rw [noEmptyAny_BTree] at h
    simp only [Bool.and_eq_true] at h
    obtain ⟨⟨hv, hl⟩, hr⟩ := h
    rw [optimize_BTree]
    apply optimizeBTree_noEmptyAny _ _ _ hv
    · cases left with
      | none => rfl
      | some x => exact optimize_noEmptyAny x hl
    · cases right with
      | none => rfl
      | some x => exact optimize_noEmptyAny x hr
  | .Any sep, _ => optimize_Any_noEmptyAny sep
  | .Raw _, h => h
  | .Single _, h => h
  | .Super, h => h
  | .List _ _, h => h
  | .Range _ _ _, h => h
  | .Prefix _, h => h
  | .Suffix _, h => h
  | .Contains _ _, h => h
  | .Min _, h => h
  | .Max _, h => h
  | .Every _, h => h
  | .AnyOf _, h => h

theorem glueResult_noEmptyAny (st : GlueState)
    (hst : st.hasAny = true → st.separator ≠ []) : noEmptyAny (glueResult st) = true := by
  unfold glueResult
  split_ifs with h1 h2 h3 h4 h5 h6 <;>
    simp [noEmptyAny, noEmptyAnyList]
  simp only [Bool.and_eq_true] at h2
  exact hst h2.1.1

theorem glueStep_noEmptyAny (i : Nat) (st st1 : GlueState) (m : Matcher)
    (hi : i = 0 → st.hasAny = false) (hst : st.hasAny = true → st.separator ≠ [])
    (hm : noEmptyAny m = true) (h : glueStep i st m = some st1) :
    st1.hasAny = true → st1.separator ≠ [] := by
  obtain ⟨sep, hf, _, h2⟩ := glueStep_some i st st1 m h
  have hcond : i = 0 ∨ st.separator = sep := by
    by_cases h0 : i = 0
    · exact Or.inl h0
    · exact Or.inr (h2 h0)
  rw [glueStep_fusible i st m sep hf hcond] at h
  injection h with h
  subst h
  simp only [Bool.or_eq_true]
  rintro (hany | hany)
  · have h0 : i ≠ 0 := by
      intro h0
      rw [hi h0] at hany
      exact Bool.noConfusion hany
    rw [← h2 h0]
    exact hst hany
  · cases m <;> first | exact Bool.noConfusion hany | skip
    rename_i s1
    simp only [fusibleSep, Option.some.injEq] at hf
    subst hf
    simpa [noEmptyAny] using hm

theorem glueLoop_noEmptyAny : ∀ (ms : List Matcher) (i : Nat) (st st1 : GlueState),
    (i = 0 → st.hasAny = false) → (st.hasAny = true → st.separator ≠ []) →
    (∀ m ∈ ms, noEmptyAny m = true) → glueLoop i st ms = some st1 →
    st1.hasAny = true → st1.separator ≠ []
  | [], _, st, st1, _, hst, _, h => by
    simp only [glueLoop, Option.some.injEq] at h
    subst h
    exact hst
  | m :: ms, i, st, st1, hi, hst, hms, h => by
    unfold glueLoop at h
    cases hstep : glueStep i st m with
    | none =>
      rw [hstep] at h
      exact Option.noConfusion h
    | some st2 =>
      rw [hstep] at h
      simp only at h
      exact glueLoop_noEmptyAny ms (i + 1) st2 st1 (fun h0 => absurd h0 (Nat.succ_ne_zero i))
        (glueStep_noEmptyAny i st st2 m hi hst (hms m (List.mem_cons_self _ _)) hstep)
        (fun x hx => hms x (List.mem_cons_of_mem _ hx)) h

theorem glueMatchers_noEmptyAny (ms : List Matcher) (g : Matcher)
    (hms : ∀ m ∈ ms, noEmptyAny m = true) (hg : glueMatchers ms = some g) :
    noEmptyAny g = true := by
  match ms, hms, hg with
  | [], _, hg => exact Option.noConfusion hg
  | [m], hms, hg =>
    simp only [glueMatchers, Option.some.injEq] at hg
    subst hg
    exact hms m (List.mem_singleton_self m)
  | a :: b :: rest, hms, hg =>
    simp only [glueMatchers] at hg
    cases hl : glueLoop 0 ⟨false, false, false, 0, []⟩ (a :: b :: rest) with
    | none =>
      rw [hl] at hg
      exact Option.noConfusion hg
    | some st =>
      rw [hl] at hg
      simp only [Option.some.injEq] at hg
      subst hg
      exact glueResult_noEmptyAny st
        (glueLoop_noEmptyAny (a :: b :: rest) 0 _ st (fun _ => rfl)
          (fun h => Bool.noConfusion h) hms hl)

theorem convertMatchers_noEmptyAny : ∀ (n : Nat) (ms : List Matcher) (r : Matcher),
    ms.length ≤ n → (∀ m ∈ ms, noEmptyAny m = true) → convertMatchers ms = .ok r →
    noEmptyAny r = true := by
  intro n
  induction n with
  | zero =>
    intro ms r hlen _ hok
    have hnil : ms = [] := List.eq_nil_of_length_eq_zero (by omega)
    subst hnil
    exact Except.noConfusion hok
  | succ n ih =>
    intro ms r hlen hms hok
    cases hg : glueMatchers ms with
    | some g =>
      rw [convertMatchers_of_glue ms g hg] at hok
      injection hok with hok
      subst hok
      exact glueMatchers_noEmptyAny ms g hms hg
    | none =>
      cases hs : scanAnchor 0 none ms with
      | none =>
        rw [convertMatchers_of_no_anchor ms hg hs] at hok
        exact Except.noConfusion hok
      | some p =>
        obtain ⟨idx, val⟩ := p
        obtain ⟨hval, _, hidx⟩ := scanAnchor_zero ms idx val hs
        obtain ⟨l, rt, rfl, hl0, hl1, hr0, hr1⟩ := convertMatchers_tree ms idx val r hg hs hok
        rw [noEmptyAny_BTree, hms val (List.getElem?_mem hval)]
        have hL : noEmptyAnySide l = true := by
          by_cases h0 : idx = 0
          · rw [hl0 h0]; rfl
          · obtain ⟨x, hx, rfl⟩ := hl1 h0
            exact ih (ms.take idx) x (by simp only [List.length_take]; omega)
              (fun m hm => hms m (List.mem_of_mem_take hm)) hx
        have hR : noEmptyAnySide rt = true := by
          by_cases h1 : idx + 1 = ms.length
          · rw [hr0 h1]; rfl
          · obtain ⟨y, hy, rfl⟩ := hr1 h1
            exact ih (ms.drop (idx + 1)) y (by simp only [List.length_drop]; omega)
              (fun m hm => hms m (List.mem_of_mem_drop hm)) hy
        rw [hL, hR]
        rfl

mutual
theorem doNode_noEmptyAny : ∀ (n : Node) (s : Str) (m : Matcher),
    doNode n s = .ok m → noEmptyAny m = true
  | .Pattern children, s, m, h => by
    simp only [doNode] at h
    cases hc : doChildren children s with
    | error e =>
      rw [hc] at h
      exact Except.noConfusion h
    | ok ms =>
      rw [hc] at h
      simp only at h
      cases hcv : convertMatchers ms with
      | error e =>
        rw [hcv] at h
        exact Except.noConfusion h
      | ok r =>
        rw [hcv] at h
        injection h with h
        subst h
        exact optimize_noEmptyAny r
          (convertMatchers_noEmptyAny ms.length ms r (Nat.le_refl _)
            (doChildren_noEmptyAny children s ms hc) hcv)
  | .AnyOf children, s, m, h => by
    simp only [doNode] at h
    cases hc : doChildren children s with
    | error e =>
      rw [hc] at h
      exact Except.noConfusion h
    | ok ms =>
      rw [hc] at h
      injection h with h
      subst h
      apply optimize_noEmptyAny
      simp only [noEmptyAny]
      exact (noEmptyAnyList_iff ms).mpr (doChildren_noEmptyAny children s ms hc)
  | .List chars not, s, m, h => by
    simp only [doNode] at h
    injection h with h
    subst h
    rfl
  | .Range lo hi not, s, m, h => by
    simp only [doNode] at h
    injection h with h
    subst h
    rfl
  | .Any, s, m, h => by
    simp only [doNode] at h
    injection h with h
    subst h
    exact optimize_Any_noEmptyAny s
  | .Super, s, m, h => by
    simp only [doNode] at h
    injection h with h
    subst h
    rfl
  | .Single, s, m, h => by
    simp only [doNode] at h
    injection h with h
    subst h
    rfl
  | .Text text, s, m, h => by
    simp only [doNode] at h
    injection h with h
    subst h
    rfl
  | .Unknown, s, m, h => by
    simp only [doNode] at h
    exact Except.noConfusion h
theorem doChildren_noEmptyAny : ∀ (children : List Node) (s : Str) (ms : List Matcher),
    doChildren children s = .ok ms → ∀ m ∈ ms, noEmptyAny m = true
  | [], s, ms, h => by
    simp only [doChildren] at h
    injection h with h
    subst h
    intro m hm
    simp at hm
  | desc :: rest, s, ms, h => by
    simp only [doChildren] at h
    cases hd : doNode desc s with
    | error e =>
      rw [hd] at h
      exact Except.noConfusion h
    | ok x =>
      rw [hd] at h
      cases hr : doChildren rest s with
      | error e =>
        rw [hr] at h
        exact Except.noConfusion h
      | ok xs =>
        rw [hr] at h
        injection h with h
        subst h
        intro m hm
        rcases List.mem_cons.mp hm with rfl | hmem
        · exact optimize_noEmptyAny x (doNode_noEmptyAny desc s x hd)
        · exact doChildren_noEmptyAny rest s xs hr m hmem
end

/-- C19: for every AST and separator string for which `compile` succeeds, the
returned matcher contains at no depth (root, Value or side of a BTree, child of an
Every or AnyOf) an Any whose separator set is empty. -/
theorem compile_no_empty_any (ast : Node) (s : Str) (m : Matcher)
    (h : compile ast s = .ok m) : noEmptyAny m = true :=
  doNode_noEmptyAny ast s m h

/-- C19 (witness): with the empty separator string `a**?` compiles to a tree whose
wildcards have become `Min 1`, and `{*,a*b}` to an AnyOf without any Any. -/
theorem compile_no_empty_any_witness :
    noEmptyAny (.BTree (.Raw ['a']) none (some (.Min 1))) = true ∧
    noEmptyAny (.AnyOf [.Super, .Every [.Prefix ['a'], .Suffix ['b']]]) = true :=
  ⟨compile_no_empty_any (.Pattern [.Text ['a'], .Any, .Any, .Single]) []
      (.BTree (.Raw ['a']) none (some (.Min 1))) rfl,
    compile_no_empty_any
      (.Pattern [.AnyOf [.Pattern [.Any], .Pattern [.Text ['a'], .Any, .Text ['b']]]]) []
      (.AnyOf [.Super, .Every [.Prefix ['a'], .Suffix ['b']]]) rfl⟩

end Glob
